import Mathlib

/-!
Verification of the rs-blockchain repository (a minimal Bitcoin-style node in
Rust) against its natural-language specification.

The Rust sources are shallowly embedded: bytes are `Nat` (values < 256),
machine integers are `Nat`/`Int` with explicit wrap-around where it matters,
and fallible Rust code returns `RResult` (distinguishing a panic, such as
`unwrap` on `None` or an out-of-bounds index, from an `anyhow` error, from an
`Ok` value).  Cryptographic primitives that the spec declares external
collaborators (RIPEMD-160, ECDSA over P-256, base58) are parameters of the
definitions that use them; SHA-256 is implemented concretely (FIPS 180-4) so
that hash-dependent claims can be decided on concrete inputs.
-/

set_option maxRecDepth 10000

/-- Outcome of running a fallible piece of Rust code: a panic (`unwrap` on
`None`/`Err`, out-of-bounds indexing), a propagated `anyhow` error, or a
normal `Ok` value. -/
inductive RResult (α : Type) where
  | panicked : RResult α
  | errored : RResult α
  | ok : α → RResult α
deriving DecidableEq

/-- Sequencing of fallible Rust computations: panics and errors propagate. -/
def RResult.bind {α β : Type} : RResult α → (α → RResult β) → RResult β
  | .panicked, _ => .panicked
  | .errored, _ => .errored
  | .ok a, f => f a

/-- Lookup in an association list, modelling `HashMap::get` / `sled::Db::get`
(string keys). -/
def lookupA {α : Type} : List (String × α) → String → Option α
  | [], _ => none
  | (k, v) :: rest, key => if k = key then some v else lookupA rest key

/-- Big-endian interpretation of a byte list as a natural number. -/
def beNat (bs : List Nat) : Nat := bs.foldl (fun a b => a * 256 + b) 0

/-- Big-endian encoding of `v` on exactly `n` bytes (used for the SHA-256
length field). -/
def beBytes (n v : Nat) : List Nat :=
  (List.range n).map (fun i => (v >>> (8 * (n - 1 - i))) % 256)

/-- Little-endian encoding of `v` on exactly `n` bytes (used by the bincode
varint encoding). -/
def leBytes (n v : Nat) : List Nat :=
  (List.range n).map (fun i => (v >>> (8 * i)) % 256)

/-- Hexadecimal digit characters. -/
def hexChars : List Char := "0123456789abcdef".data

/-- Lowercase hex encoding of a byte list, modelling `hex::encode`. -/
def hexEncode (bs : List Nat) : String :=
  String.mk (bs.flatMap (fun b => [hexChars.getD (b / 16 % 16) '0', hexChars.getD (b % 16) '0']))

/-- UTF-8 bytes of a string, modelling `str::as_bytes` and `String::into`
(`Vec<u8>`).  All strings manipulated by the program (hex ids, ASCII reward
messages, addresses) are ASCII, for which the code-point equals the byte. -/
def strBytes (s : String) : List Nat := s.data.map Char.toNat

/-- The `usize` value of an `i32`, modelling Rust's `as usize` cast (`-1`
becomes `2 ^ 64 - 1`). -/
def usizeCast (i : Int) : Nat := (i % (2 ^ 64 : Int)).toNat

/-! ## SHA-256 (FIPS 180-4), computable down to the kernel -/

/-- Right rotation of a 32-bit word. -/
def rotr32 (n x : Nat) : Nat := ((x >>> n) ||| (x <<< (32 - n))) % 4294967296

/-- SHA-256 round constants. -/
def sha256K : List Nat :=
  [1116352408, 1899447441, 3049323471, 3921009573, 961987163,
   1508970993, 2453635748, 2870763221, 3624381080, 310598401,
   607225278, 1426881987, 1925078388, 2162078206, 2614888103,
   3248222580, 3835390401, 4022224774, 264347078, 604807628,
   770255983, 1249150122, 1555081692, 1996064986, 2554220882,
   2821834349, 2952996808, 3210313671, 3336571891, 3584528711,
   113926993, 338241895, 666307205, 773529912, 1294757372,
   1396182291, 1695183700, 1986661051, 2177026350, 2456956037,
   2730485921, 2820302411, 3259730800, 3345764771, 3516065817,
   3600352804, 4094571909, 275423344, 430227734, 506948616,
   659060556, 883997877, 958139571, 1322822218, 1537002063,
   1747873779, 1955562222, 2024104815, 2227730452, 2361852424,
   2428436474, 2756734187, 3204031479, 3329325298]

/-- SHA-256 initial hash state. -/
def sha256H0 : List Nat :=
  [1779033703, 3144134277, 1013904242, 2773480762,
   1359893119, 2600822924, 528734635, 1541459225]

/-- SHA-256 message padding: a 0x80 byte, zeros to 56 mod 64, then the bit
length on 8 big-endian bytes. -/
def sha256Pad (msg : List Nat) : List Nat :=
  let padZeros := (119 - msg.length % 64) % 64
  msg ++ [0x80] ++ List.replicate padZeros 0 ++ beBytes 8 (msg.length * 8)

/-- Group bytes four at a time into big-endian 32-bit words. -/
def toWords : List Nat → List Nat
  | b0 :: b1 :: b2 :: b3 :: rest =>
      ((b0 <<< 24) + (b1 <<< 16) + (b2 <<< 8) + b3) :: toWords rest
  | _ => []

/-- Message-schedule small sigma 0. -/
def ssig0 (x : Nat) : Nat := (rotr32 7 x) ^^^ (rotr32 18 x) ^^^ (x >>> 3)

/-- Message-schedule small sigma 1. -/
def ssig1 (x : Nat) : Nat := (rotr32 17 x) ^^^ (rotr32 19 x) ^^^ (x >>> 10)

/-- Compression big sigma 0. -/
def bsig0 (x : Nat) : Nat := (rotr32 2 x) ^^^ (rotr32 13 x) ^^^ (rotr32 22 x)

/-- Compression big sigma 1. -/
def bsig1 (x : Nat) : Nat := (rotr32 6 x) ^^^ (rotr32 11 x) ^^^ (rotr32 25 x)

/-- Extend the 16-word schedule to 64 words; the accumulator is kept in
reverse order so the recent words are at the head. -/
def sha256Extend : Nat → List Nat → List Nat
  | 0, wrev => wrev.reverse
  | n + 1, wrev =>
      let nw := (ssig1 (wrev.getD 1 0) + wrev.getD 6 0 + ssig0 (wrev.getD 14 0) +
        wrev.getD 15 0) % 4294967296
      sha256Extend n (nw :: wrev)

/-- One SHA-256 round on the eight-word working state. -/
def sha256Round (st : List Nat) (kw : Nat × Nat) : List Nat :=
  match st with
  | [a, b, c, d, e, f, g, h] =>
      let t1 := (h + bsig1 e + ((e &&& f) ^^^ ((4294967295 - e) &&& g)) + kw.1 + kw.2) % 4294967296
      let t2 := (bsig0 a + ((a &&& b) ^^^ (a &&& c) ^^^ (b &&& c))) % 4294967296
      [(t1 + t2) % 4294967296, a, b, c, (d + t1) % 4294967296, e, f, g]
  | other => other

/-- Compress one 64-byte chunk into the hash state. -/
def sha256Compress (h : List Nat) (chunk : List Nat) : List Nat :=
  let w := sha256Extend 48 (toWords chunk).reverse
  let st := (sha256K.zip w).foldl sha256Round h
  (h.zip st).map (fun p => (p.1 + p.2) % 4294967296)

/-- Fold the compression function over 64-byte chunks (fuel-driven so the
kernel can evaluate it; the fuel is always sufficient). -/
def sha256Chunks : Nat → List Nat → List Nat → List Nat
  | 0, h, _ => h
  | _ + 1, h, [] => h
  | fuel + 1, h, bytes => sha256Chunks fuel (sha256Compress h (bytes.take 64)) (bytes.drop 64)

/-- SHA-256 of a byte list, as 32 digest bytes. -/
def sha256 (msg : List Nat) : List Nat :=
  let padded := sha256Pad msg
  let hs := sha256Chunks (padded.length / 64 + 1) sha256H0 padded
  hs.flatMap (beBytes 4)

/-! ## bincode `standard()` encoding (little-endian, varint) -/

/-- The bincode 2 variable-length encoding of an unsigned integer. -/
def varint (v : Nat) : List Nat :=
  if v < 251 then [v]
  else if v < 2 ^ 16 then 251 :: leBytes 2 v
  else if v < 2 ^ 32 then 252 :: leBytes 4 v
  else if v < 2 ^ 64 then 253 :: leBytes 8 v
  else 254 :: leBytes 16 v

/-- Zigzag mapping of a signed integer to an unsigned one, as used by bincode
for `i32` fields. -/
def zigzag (i : Int) : Nat := if 0 ≤ i then 2 * i.toNat else 2 * (-i).toNat - 1

/-- The bincode encoding of a signed integer. -/
def varintI (i : Int) : List Nat := varint (zigzag i)

/-- The bincode encoding of a `Vec<u8>`: varint length, then the raw bytes. -/
def encodeBytes (b : List Nat) : List Nat := varint b.length ++ b

/-- The bincode encoding of a `String`: varint length, then UTF-8 bytes. -/
def encodeString (s : String) : List Nat := encodeBytes (strBytes s)

/-- The bincode encoding of a `Vec<T>`: varint length, then each element. -/
def encodeList {α : Type} (f : α → List Nat) (l : List α) : List Nat :=
  varint l.length ++ l.flatMap f

/-! ## Transaction model (src/transaction.rs) -/

/-- The coinbase subsidy, `const SUBSIDY: i32 = 10`. -/
def SUBSIDY : Int := 10

/-- A transaction output: `TXOutput { value: i32, pub_key_hash: Vec<u8> }`. -/
structure TXOutput where
  value : Int
  pub_key_hash : List Nat
deriving DecidableEq

/-- A transaction input:
`TXInput { tx_id: String, v_out: i32, signature: Vec<u8>, pub_key: Vec<u8> }`. -/
structure TXInput where
  tx_id : String
  v_out : Int
  signature : List Nat
  pub_key : List Nat
deriving DecidableEq

/-- A transaction:
`Transaction { id: String, v_in: Vec<TXInput>, v_out: Vec<TXOutput> }`. -/
structure Transaction where
  id : String
  v_in : List TXInput
  v_out : List TXOutput
deriving DecidableEq

/-- Fallback input for list indexing (never observed: all indexed accesses
are guarded by the same bounds Rust checks). -/
def dummyInput : TXInput := ⟨"", 0, [], []⟩

/-- The bincode encoding of a `TXInput` (fields in declaration order). -/
def encodeTXInput (i : TXInput) : List Nat :=
  encodeString i.tx_id ++ varintI i.v_out ++ encodeBytes i.signature ++ encodeBytes i.pub_key

/-- The bincode encoding of a `TXOutput` (fields in declaration order). -/
def encodeTXOutput (o : TXOutput) : List Nat :=
  varintI o.value ++ encodeBytes o.pub_key_hash

/-- The bincode `standard()` encoding of a `Transaction`, as produced by
`encode_to_vec` in `Transaction::hash`. -/
def encodeTransaction (t : Transaction) : List Nat :=
  encodeString t.id ++ encodeList encodeTXInput t.v_in ++ encodeList encodeTXOutput t.v_out

namespace Transaction

/-- Clear the id of a transaction (the `data.id = "".to_owned()` step of
`Transaction::hash`). -/
def clearId (t : Transaction) : Transaction := { t with id := "" }

/-- Clear every input signature of a transaction (not a source function; used
to state what the id of a signed transaction actually commits to). -/
def clearSigs (t : Transaction) : Transaction :=
  { t with v_in := t.v_in.map (fun i => { i with signature := [] }) }

/-- `Transaction::hash`: SHA-256 of the bincode encoding of the transaction
with its id cleared.  The Rust function returns `Result` only because
`encode_to_vec` is fallible in general; on these types it cannot fail, so the
model is pure. -/
def hashTx (sha : List Nat → List Nat) (t : Transaction) : List Nat :=
  sha (encodeTransaction t.clearId)

/-- `Transaction::set_id`: store the hex encoding of the hash in the id. -/
def set_id (sha : List Nat → List Nat) (t : Transaction) : Transaction :=
  { t with id := hexEncode (hashTx sha t) }

/-- `Transaction::is_coinbase`. -/
def is_coinbase (t : Transaction) : Bool :=
  t.v_in.length == 1 && (t.v_in.getD 0 dummyInput).tx_id == "" &&
    (t.v_in.getD 0 dummyInput).v_out == (-1 : Int)

/-- `Transaction::trimmed_copy`: same id and outputs, inputs with signature
and public key cleared. -/
def trimmed_copy (t : Transaction) : Transaction :=
  { id := t.id,
    v_in := t.v_in.map (fun i => { tx_id := i.tx_id, v_out := i.v_out, signature := [], pub_key := [] }),
    v_out := t.v_out }

/-- Replace the pub_key of the input at position `i` (the in-place mutation
`tx_copy.v_in[in_id].pub_key = ...`). -/
def setInPubKey (t : Transaction) (i : Nat) (pk : List Nat) : Transaction :=
  { t with v_in := t.v_in.set i { t.v_in.getD i dummyInput with pub_key := pk } }

/-- Replace the signature of the input at position `i` (the in-place mutation
`tx_copy.v_in[in_id].signature.clear()`). -/
def setInSig (t : Transaction) (i : Nat) (sg : List Nat) : Transaction :=
  { t with v_in := t.v_in.set i { t.v_in.getD i dummyInput with signature := sg } }

end Transaction

/-- The order of the NIST P-256 curve (group order `n`), against which
`Signature::from_scalars` validates the raw `r` and `s` bytes. -/
def p256Order : Nat := 0xffffffff00000000ffffffffffffffffbce6faada7179e84f3b9cac2fc632551

/-- Validity of one raw scalar of a signature: a nonzero value below the curve
order, as required by `p256::ecdsa::Signature::from_scalars`. -/
def scalarValid (r : Nat) : Bool := 0 < r && r < p256Order

namespace Transaction

/-- The body of the `Transaction::verify` loop, iterating over the enumerated
original inputs while threading the trimmed copy `txc` (whose input pub_keys
are set and cleared around each `set_id`).  `sec1Valid` models
`VerifyingKey::from_sec1_bytes` succeeding and `ecdsaVerify pk msg r s` models
`VerifyingKey::verify` succeeding — both external primitives. -/
def verifyGo (sha : List Nat → List Nat) (sec1Valid : List Nat → Bool)
    (ecdsaVerify : List Nat → List Nat → Nat → Nat → Bool)
    (prevs : List (String × Transaction)) :
    List (Nat × TXInput) → Transaction → RResult Bool
  | [], _ => .ok true
  | (i, vin) :: rest, txc =>
    match lookupA prevs vin.tx_id with
    | none => .panicked
    | some prev =>
      match prev.v_out.get? (usizeCast vin.v_out) with
      | none => .panicked
      | some out =>
        let txc1 := (txc.setInSig i []).setInPubKey i out.pub_key_hash
        let txc2 := txc1.set_id sha
        let txc3 := txc2.setInPubKey i []
        if vin.signature.length ≠ 64 then .ok false
        else
          let r := beNat (vin.signature.take 32)
          let s := beNat (vin.signature.drop 32)
          if scalarValid r && scalarValid s then
            if sec1Valid vin.pub_key then
              if ecdsaVerify vin.pub_key (strBytes txc2.id) r s then
                verifyGo sha sec1Valid ecdsaVerify prevs rest txc3
              else .ok false
            else .errored
          else .errored

/-- `Transaction::verify`: check the ECDSA signature of every input against
the trimmed-copy message.  There is no coinbase early return (contrast:
`Transaction::sign` has one). -/
def verify (sha : List Nat → List Nat) (sec1Valid : List Nat → Bool)
    (ecdsaVerify : List Nat → List Nat → Nat → Nat → Bool)
    (prevs : List (String × Transaction)) (t : Transaction) : RResult Bool :=
  verifyGo sha sec1Valid ecdsaVerify prevs (t.v_in.enum) t.trimmed_copy

/-- The body of the `Transaction::sign` loop: for each input, rebuild the
trimmed message, sign it with the external primitive `ecdsaSign` (which
returns the 64 raw `r || s` bytes), and collect the updated inputs of `self`.
`privValid` models `SigningKey::from_bytes` succeeding. -/
def signGo (sha : List Nat → List Nat) (privValid : List Nat → Bool)
    (ecdsaSign : List Nat → List Nat → List Nat) (priv : List Nat)
    (prevs : List (String × Transaction)) :
    List (Nat × TXInput) → Transaction → RResult (List TXInput)
  | [], _ => .ok []
  | (i, vin) :: rest, txc =>
    match lookupA prevs vin.tx_id with
    | none => .panicked
    | some prev =>
      match prev.v_out.get? (usizeCast vin.v_out) with
      | none => .panicked
      | some out =>
        let txc1 := (txc.setInSig i []).setInPubKey i out.pub_key_hash
        let txc2 := txc1.set_id sha
        let txc3 := txc2.setInPubKey i []
        if privValid priv then
          let sg := ecdsaSign priv (strBytes txc2.id)
          (signGo sha privValid ecdsaSign priv prevs rest txc3).bind
            (fun restIns => .ok ({ vin with signature := sg } :: restIns))
        else .errored

/-- `Transaction::sign`: a coinbase returns unchanged at once; otherwise every
input receives a fresh signature over the trimmed message. -/
def sign (sha : List Nat → List Nat) (privValid : List Nat → Bool)
    (ecdsaSign : List Nat → List Nat → List Nat) (priv : List Nat)
    (prevs : List (String × Transaction)) (t : Transaction) : RResult Transaction :=
  if t.is_coinbase then .ok t
  else
    (signGo sha privValid ecdsaSign priv prevs
      (t.v_in.enum) t.trimmed_copy).bind
      (fun ins => .ok { t with v_in := ins })

end Transaction

/-! ## Outputs, locking, addresses (src/transaction.rs, src/utils.rs, src/wallet.rs) -/

/-- `TXOutput::is_locked_with_key`: plain byte equality with the stored
public-key hash. -/
def TXOutput.is_locked_with_key (o : TXOutput) (pkh : List Nat) : Bool :=
  o.pub_key_hash == pkh

/-- `TXOutput::lock`: base58-decode the address, strip the version byte and
the 4 checksum bytes, store the rest.  `fromBase58` is the external base58
decoder. -/
def TXOutput.lock (fromBase58 : String → List Nat) (o : TXOutput) (address : String) : TXOutput :=
  let d := fromBase58 address
  { o with pub_key_hash := (d.drop 1).take (d.length - 5) }

/-- `TXOutput::new`: an output of the given value locked to the address. -/
def TXOutput.new (fromBase58 : String → List Nat) (value : Int) (address : String) : TXOutput :=
  TXOutput.lock fromBase58 ⟨value, []⟩ address

/-- `TXInput::uses_key`: the hash of the input's public key equals the given
public-key hash.  `hashPubKey` is the external `hash_pub_key`
(RIPEMD160 of SHA256). -/
def TXInput.uses_key (hashPubKey : List Nat → List Nat) (i : TXInput) (pkh : List Nat) : Bool :=
  hashPubKey i.pub_key == pkh

/-- A wallet record: `Wallet { private_key: Vec<u8>, public_key: Vec<u8> }`. -/
structure Wallet where
  private_key : List Nat
  public_key : List Nat
deriving DecidableEq

/-- The wallet checksum (src/wallet.rs): the first `ADDRESS_CHECKSUM_LEN = 4`
bytes of the double SHA-256 of the payload. -/
def checksumW (sha : List Nat → List Nat) (payload : List Nat) : List Nat :=
  (sha (sha payload)).take 4

/-- `Wallet::get_address`: base58 of `VERSION(0x00) || hash_pub_key(pub) ||
checksum4`.  `toBase58` is the external base58 encoder. -/
def Wallet.get_address (sha : List Nat → List Nat) (hashPubKey : List Nat → List Nat)
    (toBase58 : List Nat → String) (w : Wallet) : String :=
  let versioned := 0 :: hashPubKey w.public_key
  toBase58 (versioned ++ checksumW sha versioned)

/-- `get_pub_key_hash` (src/utils.rs): base58-decode the address and strip the
version byte and the 4 trailing checksum bytes. -/
def get_pub_key_hash (fromBase58 : String → List Nat) (address : String) : List Nat :=
  let d := fromBase58 address
  (d.drop 1).take (d.length - 5)

/-! ## Blockchain store (src/blockchain.rs)

The persistent block store is abstracted by the sequence of blocks the
`BlockchainIterator` yields, tip first (each block decoded from the database;
decoding is the inverse of the encoding and is not re-modelled).  Only the
fields that blockchain.rs reads appear here: blockchain.rs belongs to a
revision whose `Block` carries a transaction list (src/block.rs in the
snapshot is an older revision with a `data: String` payload, modelled
separately below for the proof-of-work claims). -/

/-- A block as read by blockchain.rs: its transactions and the two hashes. -/
structure ChainBlock where
  transactions : List Transaction
  prev_block_hash : List Nat
  hash : List Nat
deriving DecidableEq

/-- The chain as iterated from the tip: `Blockchain::iter` yields these blocks
in this order (tip towards genesis). -/
abbrev Chain : Type := List ChainBlock

/-- All transactions of the chain in iteration order (outer loop over blocks,
inner loop over each block's transactions, flattened). -/
def flatTxs (c : Chain) : List Transaction := c.flatMap (fun b => b.transactions)

/-- The `spend_txos` accumulator: `HashMap<String, Vec<i32>>`, modelled as an
association list (iteration order of the map itself is never used). -/
abbrev SpendMap : Type := List (String × List Int)

/-- Membership test `spend_txos.get(&tx.id)` followed by `ids.contains`. -/
def smContains (m : SpendMap) (k : String) (idx : Int) : Bool :=
  match lookupA m k with
  | none => false
  | some ids => ids.contains idx

/-- `spend_txos.entry(k).or_insert_with(Vec::new).push(v)`. -/
def smAdd : SpendMap → String → Int → SpendMap
  | [], k, v => [(k, [v])]
  | (k0, l) :: rest, k, v =>
    if k0 = k then (k0, l ++ [v]) :: rest else (k0, l) :: smAdd rest k v

/-- The input loop of `find_unspend_transactions`: record every output
reference made by an input whose key hashes to `pkh`. -/
def markSpent (hashPubKey : List Nat → List Nat) (pkh : List Nat) :
    SpendMap → List TXInput → SpendMap
  | m, [] => m
  | m, i :: is =>
    markSpent hashPubKey pkh
      (if i.uses_key hashPubKey pkh then smAdd m i.tx_id i.v_out else m) is

/-- The output loop of `find_unspend_transactions`: push the whole transaction
once for every enumerated output that is not recorded as spent and is locked
to `pkh`. -/
def collectOuts (pkh : List Nat) (t : Transaction) (m : SpendMap) :
    List (Nat × TXOutput) → List Transaction
  | [] => []
  | (idx, o) :: rest =>
    if smContains m t.id ((idx : Int)) then collectOuts pkh t m rest
    else if o.is_locked_with_key pkh then t :: collectOuts pkh t m rest
    else collectOuts pkh t m rest

/-- The transaction loop of `find_unspend_transactions`, threading the
`spend_txos` accumulator through the flattened tip-to-genesis transaction
sequence. -/
def futGo (hashPubKey : List Nat → List Nat) (pkh : List Nat) :
    SpendMap → List Transaction → List Transaction
  | _, [] => []
  | m, t :: rest =>
    collectOuts pkh t m t.v_out.enum ++
      futGo hashPubKey pkh
        (if t.is_coinbase then m else markSpent hashPubKey pkh m t.v_in) rest

/-- `Blockchain::find_unspend_transactions`. -/
def find_unspend_transactions (hashPubKey : List Nat → List Nat)
    (c : Chain) (pkh : List Nat) : List Transaction :=
  futGo hashPubKey pkh [] (flatTxs c)

/-- `Blockchain::find_utxo`: every output of every pushed transaction that is
locked to `pkh`. -/
def find_utxo (hashPubKey : List Nat → List Nat) (c : Chain) (pkh : List Nat) :
    List TXOutput :=
  (find_unspend_transactions hashPubKey c pkh).flatMap
    (fun t => t.v_out.filter (fun o => o.is_locked_with_key pkh))

/-- The inner output loop of `Blockchain::find_spendable_outputs`; the `Bool`
component signals the early `return` once `accumulated >= amount`. -/
def fsoOuts (pkh : List Nat) (amount : Int) (t : Transaction) :
    List (Nat × TXOutput) → Int → List (String × List Int) →
      Int × List (String × List Int) × Bool
  | [], acc, m => (acc, m, false)
  | (idx, o) :: rest, acc, m =>
    if o.is_locked_with_key pkh && acc < amount then
      let acc2 := acc + o.value
      let m2 := smAdd m t.id ((idx : Int))
      if amount ≤ acc2 then (acc2, m2, true) else fsoOuts pkh amount t rest acc2 m2
    else fsoOuts pkh amount t rest acc m

/-- The transaction loop of `Blockchain::find_spendable_outputs`. -/
def fsoGo (pkh : List Nat) (amount : Int) :
    List Transaction → Int → List (String × List Int) → Int × List (String × List Int)
  | [], acc, m => (acc, m)
  | t :: rest, acc, m =>
    match fsoOuts pkh amount t t.v_out.enum acc m with
    | (acc2, m2, true) => (acc2, m2)
    | (acc2, m2, false) => fsoGo pkh amount rest acc2 m2

/-- `Blockchain::find_spendable_outputs`: accumulate outputs locked to `pkh`
until `amount` is reached.  The `unspent_outputs` map is a `HashMap` in the
source; the model keeps insertion order (a single-key map, as in every
scenario proved about below, is order-independent). -/
def find_spendable_outputs (hashPubKey : List Nat → List Nat) (c : Chain)
    (pkh : List Nat) (amount : Int) : Int × List (String × List Int) :=
  fsoGo pkh amount (find_unspend_transactions hashPubKey c pkh) 0 []

/-- The transaction scan of one block for `Blockchain::find_transaction`. -/
def findTxInList (id : String) : List Transaction → Option Transaction
  | [] => none
  | t :: rest => if t.id = id then some t else findTxInList id rest

/-- `Blockchain::find_transaction`: scan blocks from the tip; stop after a
block whose `prev_block_hash` is empty (dead code in Rust, where the field is
a fixed 32-byte array, kept for fidelity). -/
def find_transaction (c : Chain) (id : String) : Option Transaction :=
  match c with
  | [] => none
  | b :: rest =>
    match findTxInList id b.transactions with
    | some t => some t
    | none => if b.prev_block_hash.length = 0 then none else find_transaction rest id

/-- The `prev_txs` prefetch loop shared by `Blockchain::sign_transaction` and
`Blockchain::verify_transaction`: `find_transaction(&vin.tx_id).unwrap()` for
every input — a panic when the referenced transaction is missing. -/
def buildPrevTxs (c : Chain) : List TXInput → List (String × Transaction) →
    RResult (List (String × Transaction))
  | [], acc => .ok acc
  | vin :: rest, acc =>
    match find_transaction c vin.tx_id with
    | none => .panicked
    | some prev => buildPrevTxs c rest (upsertA acc prev.id prev)
where
  /-- `HashMap::insert`: replace an existing binding or append a new one. -/
  upsertA (acc : List (String × Transaction)) (k : String) (v : Transaction) :
      List (String × Transaction) :=
    match acc with
    | [] => [(k, v)]
    | (k0, v0) :: rest => if k0 = k then (k, v) :: rest else (k0, v0) :: upsertA rest k v

/-- `Blockchain::verify_transaction`: prefetch previous transactions, then
delegate to `Transaction::verify`. -/
def verify_transaction (sha : List Nat → List Nat) (sec1Valid : List Nat → Bool)
    (ecdsaVerify : List Nat → List Nat → Nat → Nat → Bool)
    (c : Chain) (t : Transaction) : RResult Bool :=
  (buildPrevTxs c t.v_in []).bind (fun prevs => t.verify sha sec1Valid ecdsaVerify prevs)

/-- `Blockchain::sign_transaction`: prefetch previous transactions, then
delegate to `Transaction::sign`. -/
def sign_transaction (sha : List Nat → List Nat) (privValid : List Nat → Bool)
    (ecdsaSign : List Nat → List Nat → List Nat)
    (c : Chain) (t : Transaction) (priv : List Nat) : RResult Transaction :=
  (buildPrevTxs c t.v_in []).bind (fun prevs => t.sign sha privValid ecdsaSign priv prevs)

/-! ## Transaction constructors (src/transaction.rs) -/

/-- An ASCII apostrophe, used by the default coinbase data string. -/
def squote : String := String.singleton (Char.ofNat 39)

/-- `Transaction::new_coinbase`: a single input with empty tx_id, `v_out = -1`
and the data string as its public-key bytes, one subsidy output.  The Rust
`Result` is always `Ok` (encoding cannot fail), so the model is pure. -/
def new_coinbase (sha : List Nat → List Nat) (fromBase58 : String → List Nat)
    (to_ : String) (data : String) : Transaction :=
  let data2 := if data = "" then "Reward to " ++ squote ++ to_ ++ squote else data
  let tx_in : TXInput := { tx_id := "", v_out := -1, signature := [], pub_key := strBytes data2 }
  let tx_out := TXOutput.new fromBase58 SUBSIDY to_
  Transaction.set_id sha { id := "", v_in := [tx_in], v_out := [tx_out] }

/-- `Transaction::new_utxo`: gather spendable outputs of `from`, build inputs
carrying the sender's public key and empty signatures, add the payment output
and a change output when needed, compute the id, then sign against the chain.
The wallet store (`Wallets::new` reads it from disk) is passed in as the
association list it loads. -/
def new_utxo (sha : List Nat → List Nat) (hashPubKey : List Nat → List Nat)
    (fromBase58 : String → List Nat) (privValid : List Nat → Bool)
    (ecdsaSign : List Nat → List Nat → List Nat)
    (wallets : List (String × Wallet)) (c : Chain)
    (from_ to_ : String) (amount : Int) : RResult Transaction :=
  match lookupA wallets from_ with
  | none => .panicked
  | some w =>
    let pkh := hashPubKey w.public_key
    let (acc, valid) := find_spendable_outputs hashPubKey c pkh amount
    if acc < amount then .errored
    else
      let inputs := valid.flatMap (fun p =>
        p.2.map (fun o =>
          ({ tx_id := p.1, v_out := o, signature := [], pub_key := w.public_key } : TXInput)))
      let outputs := [TXOutput.new fromBase58 amount to_] ++
        (if amount < acc then [TXOutput.new fromBase58 (acc - amount) from_] else [])
      let tx := Transaction.set_id sha { id := "", v_in := inputs, v_out := outputs }
      sign_transaction sha privValid ecdsaSign c tx w.private_key

/-! ## Block and proof-of-work (src/block.rs) -/

/-- `const TARGET_BITS: usize = 2` — the number of leading hash BYTES the
comparison in `Block::validate` requires to be zero. -/
def TARGET_BITS : Nat := 2

/-- A block as defined in src/block.rs:
`Block { timestamp: u128, data: String, prev_block_hash: [u8; 32], hash: [u8; 32], nonce: u32 }`. -/
structure Block where
  timestamp : Nat
  data : String
  prev_block_hash : List Nat
  hash : List Nat
  nonce : Nat
deriving DecidableEq

namespace Block

/-- `Block::prepare_hash_data`: the bincode `standard()` encoding of the tuple
`(&prev_block_hash, &data, timestamp, TARGET_BITS, nonce)` — a fixed 32-byte
array (raw bytes), a string, and three varint integers. -/
def prepare_hash_data (b : Block) : List Nat :=
  b.prev_block_hash ++ encodeString b.data ++ varint b.timestamp ++
    varint TARGET_BITS ++ varint b.nonce

/-- `Block::hash`: double SHA-256 of the prepared data. -/
def hashB (sha : List Nat → List Nat) (b : Block) : List Nat :=
  sha (sha b.prepare_hash_data)

/-- `Block::validate`: the first `TARGET_BITS` bytes of the recomputed hash
are zero. -/
def validate (sha : List Nat → List Nat) (b : Block) : Bool :=
  (b.hashB sha).take TARGET_BITS == List.replicate TARGET_BITS 0

/-- `Block::run_proof_of_work`: increment the nonce until `validate` holds,
then store the hash.  The Rust loop has no bound; the model burns explicit
fuel and returns `none` when it runs out, so everything `some` it produces is
something the loop really reaches.  The nonce is a `u32`, hence the wrap. -/
def run_proof_of_work (sha : List Nat → List Nat) : Nat → Block → Option Block
  | 0, _ => none
  | fuel + 1, b =>
    if b.validate sha then some { b with hash := b.hashB sha }
    else run_proof_of_work sha fuel { b with nonce := (b.nonce + 1) % 2 ^ 32 }

/-- `Block::new`: fresh block with the current timestamp, zero hash and nonce,
mined by `run_proof_of_work`.  The timestamp (`SystemTime::now`) is passed
in. -/
def new (sha : List Nat → List Nat) (fuel : Nat) (data : String)
    (prev_block_hash : List Nat) (ts : Nat) : Option Block :=
  run_proof_of_work sha fuel
    { timestamp := ts, data := data, prev_block_hash := prev_block_hash,
      hash := List.replicate 32 0, nonce := 0 }

end Block

/-- Bit `i` (most significant first, across bytes) of a hash, for stating the
`first TARGET_BITS bits are zero` reading of the difficulty check. -/
def hashBit (h : List Nat) (i : Nat) : Bool :=
  Nat.testBit (h.getD (i / 8) 255) (7 - i % 8)

/-! ## UTXO set (src/utxoset.rs)

The `db/utxos` tree maps the ascii tx id to the bincode encoding of
`TXOutputs { outputs: Vec<TXOutput> }`; the model keeps the decoded output
lists directly, keyed by the id string. -/

/-- The UTXO store: tx id to the outputs of its stored record. -/
abbrev UtxoStore : Type := List (String × List TXOutput)

/-- `db.get(key)` on the UTXO store. -/
def storeGet : UtxoStore → String → Option (List TXOutput)
  | [], _ => none
  | (k, v) :: rest, key => if k = key then some v else storeGet rest key

/-- `db.insert(key, value)` on the UTXO store. -/
def storeInsert : UtxoStore → String → List TXOutput → UtxoStore
  | [], key, v => [(key, v)]
  | (k0, v0) :: rest, key, v =>
    if k0 = key then (key, v) :: rest else (k0, v0) :: storeInsert rest key v

/-- `db.remove(key)` on the UTXO store. -/
def storeRemove : UtxoStore → String → UtxoStore
  | [], _ => []
  | (k0, v0) :: rest, key =>
    if k0 = key then storeRemove rest key else (k0, v0) :: storeRemove rest key

/-- The output filter of `UTXOSet::update`: keep the outputs of the loaded
record whose position differs from `vin.v_out as usize`. -/
def dropIdx (outs : List TXOutput) (v : Int) : List TXOutput :=
  (outs.enum.filter (fun p => p.1 ≠ usizeCast v)).map (fun p => p.2)

/-- Store the shrunken record, or remove it when no outputs survive. -/
def applySpend (st : UtxoStore) (k : String) (kept : List TXOutput) : UtxoStore :=
  if kept.isEmpty then storeRemove st k else storeInsert st k kept

/-- One input step of `UTXOSet::update`: load the record the input spends
(`unwrap` panics when it is absent), keep the outputs whose index differs
from `vin.v_out as usize`, then remove or re-insert the record. -/
def updateVin (st : UtxoStore) (vin : TXInput) : RResult UtxoStore :=
  match storeGet st vin.tx_id with
  | none => .panicked
  | some outs => .ok (applySpend st vin.tx_id (dropIdx outs vin.v_out))

/-- The input loop of `UTXOSet::update` for one transaction. -/
def updateVins : UtxoStore → List TXInput → RResult UtxoStore
  | st, [] => .ok st
  | st, vin :: rest => (updateVin st vin).bind (fun st2 => updateVins st2 rest)

/-- One transaction step of `UTXOSet::update`: spend the inputs of a
non-coinbase transaction, then store the transaction's own outputs under its
id. -/
def updateTx (st : UtxoStore) (t : Transaction) : RResult UtxoStore :=
  (if t.is_coinbase then .ok st else updateVins st t.v_in).bind
    (fun st2 => .ok (storeInsert st2 t.id t.v_out))

/-- The transaction loop of `UTXOSet::update`. -/
def updateTxs : UtxoStore → List Transaction → RResult UtxoStore
  | st, [] => .ok st
  | st, t :: rest => (updateTx st t).bind (fun st2 => updateTxs st2 rest)

/-- `UTXOSet::update(block)`: process every transaction of the block in
order. -/
def utxo_update (st : UtxoStore) (b : ChainBlock) : RResult UtxoStore :=
  updateTxs st b.transactions

/-! ## Height-aware block adoption (claim C2)

Modelled from the spec: the `Blockchain::add_block` that the peer-to-peer
node calls (src/server.rs, `Message::Block` handler) belongs to a revision
whose blocks carry a height and is not part of the snapshot — the
blockchain.rs present is an older revision whose private `add_block` knows no
heights.  Spec 4.E: "add_block(block): accept a pre-validated block
(proof-of-work must hold).  If its height is greater than current tip's
height, update l; otherwise just store it." -/

/-- Modelled from the spec: a stored block as the height-aware store needs it
(its hash key and its height). -/
structure SBlock where
  hash : List Nat
  height : Int
deriving DecidableEq

/-- Modelled from the spec: the persistent block store: hash-keyed block
records plus the reserved tip key `"l"` holding the hash of the best-height
block. -/
structure SStore where
  entries : List (List Nat × SBlock)
  tipHash : List Nat
deriving DecidableEq

namespace SStore

/-- Lookup of a stored block by hash. -/
def get_block (s : SStore) (h : List Nat) : Option SBlock :=
  (s.entries.find? (fun p => p.1 == h)).map (fun p => p.2)

/-- Insert a block record under its hash (replacing any previous record). -/
def putBlock (s : SStore) (b : SBlock) : List (List Nat × SBlock) :=
  go s.entries
where
  go : List (List Nat × SBlock) → List (List Nat × SBlock)
    | [] => [(b.hash, b)]
    | (k, v) :: rest => if k = b.hash then (b.hash, b) :: rest else (k, v) :: go rest

/-- Modelled from the spec: `get_best_height` — the height of the tip block,
`-1` when there is no chain. -/
def get_best_height (s : SStore) : Int :=
  match s.get_block s.tipHash with
  | some b => b.height
  | none => -1

/-- Modelled from the spec: `add_block` — store the block; update the tip key
`"l"` only when the new block's height is greater than the current tip's. -/
def add_block (s : SStore) (b : SBlock) : SStore :=
  if s.get_best_height < b.height then { entries := s.putBlock b, tipHash := b.hash }
  else { entries := s.putBlock b, tipHash := s.tipHash }

end SStore

/-! ## Base58 (external primitive, implemented for concrete witnesses) -/

/-- The base58 alphabet. -/
def b58Chars : List Char :=
  "123456789ABCDEFGHJKLMNPQRSTUVWXYZabcdefghijkmnopqrstuvwxyz".data

/-- Base58 digits of a number, most significant first (fuel-driven division
loop). -/
def b58Digits : Nat → Nat → List Char
  | 0, _ => []
  | fuel + 1, n =>
    if n = 0 then [] else b58Digits fuel (n / 58) ++ [b58Chars.getD (n % 58) '1']

/-- Count of leading zero bytes (encoded as leading ones). -/
def countLeading (b : Nat) : List Nat → Nat
  | [] => 0
  | x :: rest => if x = b then countLeading b rest + 1 else 0

/-- Base58 encoding of a byte list. -/
def toBase58 (bs : List Nat) : String :=
  let zeros := countLeading 0 bs
  String.mk (List.replicate zeros '1' ++ b58Digits (2 * bs.length + 1) (beNat bs))

/-- Minimal big-endian byte representation of a number (fuel-driven). -/
def natToBytesBE : Nat → Nat → List Nat
  | 0, _ => []
  | fuel + 1, n => if n = 0 then [] else natToBytesBE fuel (n / 256) ++ [n % 256]

/-- Base58 decoding of a string. -/
def fromBase58 (s : String) : List Nat :=
  let cs := s.data
  let zeros := cs.foldl (fun z c => if z.2 && c == '1' then (z.1 + 1, true) else (z.1, false))
    ((0 : Nat), true)
  let n := cs.foldl (fun a c => a * 58 + (b58Chars.indexOf c)) 0
  List.replicate zeros.1 0 ++ natToBytesBE cs.length n

/-! ## Concrete scenario constants for witnesses and counterexamples -/

/-- Trivial SEC1 public-key validity (the external check accepts). -/
def sTrue : List Nat → Bool := fun _ => true

/-- Trivial ECDSA verification (the external check accepts). -/
def evTrue : List Nat → List Nat → Nat → Nat → Bool := fun _ _ _ _ => true

/-- Trivial private-key validity (the external check accepts). -/
def pvTrue : List Nat → Bool := fun _ => true

/-- Degenerate hash used where a witness must mine a block. -/
def shaZ : List Nat → List Nat := fun _ => List.replicate 32 0

/-- Concrete stand-in for the external ECDSA signer: some fixed 64 raw
`r || s` bytes (the real signer also always returns 64 bytes). -/
def sgOnes : List Nat → List Nat → List Nat := fun _ _ => List.replicate 64 1

/-- Concrete stand-in for `hash_pub_key` under which the scenario sender owns
public-key hash `[5]`. -/
def hpkC : List Nat → List Nat := fun _ => [5]

/-- Concrete stand-in for the external base58 decoder: the recipient address
decodes to version 0, hash `[7]`, checksum; every other address to hash
`[5]`. -/
def fbC : String → List Nat := fun a => if a = "TADDR" then [0, 7, 9, 9, 9, 9] else [0, 5, 9, 9, 9, 9]

/-- The scenario sender's wallet. -/
def walletF : Wallet := ⟨[1], [2]⟩

/-- The loaded wallet store of the scenario. -/
def walletsC : List (String × Wallet) := [("FADDR", walletF)]

/-- A coinbase transaction paying 10 to hash `[5]`, sitting in the scenario
chain. -/
def t0C : Transaction := ⟨"aa", [⟨"", -1, [], strBytes "gen"⟩], [⟨10, [5]⟩]⟩

/-- A one-block chain containing `t0C`. -/
def chainC3 : Chain := [⟨[t0C], List.replicate 32 0, [1]⟩]

/-- A coinbase transaction (single input, empty tx id, `v_out = -1`). -/
def cbC1 : Transaction := ⟨"cb", [⟨"", -1, [], strBytes "d"⟩], [⟨10, [5]⟩]⟩

/-! ## Claim C1 -/

/-- Claim C1 (code bug): the spec says every coinbase transaction verifies
trivially `true`, but `Transaction::verify` has no coinbase early return
(unlike `Transaction::sign`): its loop body runs on the single coinbase input
and `prev_txs.get("").unwrap()` panics, and `Blockchain::verify_transaction`
already panics while prefetching (`find_transaction("").unwrap()` on a chain
whose transactions all carry hex ids).  Evaluated at a concrete coinbase
transaction and chain: both entry points panic instead of returning
`Ok(true)`. -/
theorem c1_coinbase_verify_panics :
    verify_transaction sha256 sTrue evTrue chainC3 cbC1 = RResult.panicked ∧
      Transaction.verify sha256 sTrue evTrue [] cbC1 = RResult.panicked ∧
      cbC1.is_coinbase = true := by
  refine ⟨by decide, by decide, by decide⟩

/-! ## Claim C2 (modelled from the spec) -/

/-- Lookup after `putBlock` finds the freshly stored block. -/
theorem SStore.get_block_putBlock (s : SStore) (b : SBlock) (t : List Nat) :
    SStore.get_block ⟨s.putBlock b, t⟩ b.hash = some b := by
  show ((SStore.putBlock.go b s.entries).find? (fun p => p.1 == b.hash)).map _ = _
  induction s.entries with
  | nil => simp [SStore.putBlock.go, List.find?]
  | cons kv rest ih =>
    by_cases h : kv.1 = b.hash
    · simp [SStore.putBlock.go, h, List.find?]
    · simpa [SStore.putBlock.go, h, List.find?_cons, beq_iff_eq] using ih

/-- Claim C2 (confirmed, modelled from the spec; the height-aware `add_block`
the server calls is not part of the snapshot): `add_block` always stores the
block (it is afterwards retrievable by hash), updates the tip key `"l"` to
the new block's hash exactly when the new height is greater than the current
tip's height, and otherwise leaves the tip unchanged. -/
theorem c2_add_block_tip_rule (s : SStore) (b : SBlock) :
    (s.add_block b).get_block b.hash = some b ∧
      (¬ s.get_best_height < b.height → (s.add_block b).tipHash = s.tipHash) ∧
      (s.get_best_height < b.height → (s.add_block b).tipHash = b.hash) := by
  refine ⟨?_, ?_, ?_⟩
  · by_cases h : s.get_best_height < b.height <;>
      simpa [SStore.add_block, h] using SStore.get_block_putBlock s b _
  · intro h; simp [SStore.add_block, h]
  · intro h; simp [SStore.add_block, h]

/-- A stored tip block of height 5. -/
def sb1 : SBlock := ⟨[1], 5⟩

/-- A store whose tip is `sb1`. -/
def st2 : SStore := ⟨[([1], sb1)], [1]⟩

/-- A lower block (height 3) arriving at the store. -/
def sb2 : SBlock := ⟨[2], 3⟩

/-- Witness for C2: adding a block of height 3 over a tip of height 5 stores
the block and leaves the tip unchanged. -/
theorem c2_add_block_tip_rule_witness :
    (st2.add_block sb2).get_block sb2.hash = some sb2 ∧
      (st2.add_block sb2).tipHash = st2.tipHash :=
  ⟨(c2_add_block_tip_rule st2 sb2).1, (c2_add_block_tip_rule st2 sb2).2.1 (by decide)⟩

/-! ## Claim C5 -/

/-- Changing only the stored hash does not change the hashed payload. -/
theorem Block.prepare_hash_data_set_hash (b : Block) (h : List Nat) :
    Block.prepare_hash_data { b with hash := h } = b.prepare_hash_data := rfl

/-- Whatever `run_proof_of_work` returns recomputes to its own stored hash
and passes the byte-level difficulty comparison. -/
theorem Block.run_proof_of_work_spec (sha : List Nat → List Nat) :
    ∀ (fuel : Nat) (b0 b : Block), Block.run_proof_of_work sha fuel b0 = some b →
      b.hash = sha (sha b.prepare_hash_data) ∧
        b.hash.take TARGET_BITS = List.replicate TARGET_BITS 0 := by
  intro fuel
  induction fuel with
  | zero => intro b0 b h; simp [Block.run_proof_of_work] at h
  | succ n ih =>
    intro b0 b h
    rw [Block.run_proof_of_work] at h
    by_cases hv : b0.validate sha
    · rw [if_pos hv] at h
      have hb : b = { b0 with hash := b0.hashB sha } := by
        exact (Option.some.injEq _ _).mp h.symm |>.symm ▸ (Option.some.inj h).symm
      subst hb
      have hpre : Block.prepare_hash_data { b0 with hash := b0.hashB sha } =
          b0.prepare_hash_data := rfl
      constructor
      · show b0.hashB sha = sha (sha _)
        rw [hpre]; rfl
      · show (b0.hashB sha).take TARGET_BITS = _
        have := of_decide_eq_true (by simpa [Block.validate] using hv)
        simpa [Block.validate, beq_iff_eq] using hv
    · rw [if_neg hv] at h
      exact ih _ b h

/-- A hash whose first `TARGET_BITS` bytes are zero has its first
`TARGET_BITS` bits zero. -/
theorem hashBit_zero_of_take (l : List Nat)
    (h : l.take TARGET_BITS = List.replicate TARGET_BITS 0) :
    ∀ i, i < TARGET_BITS → hashBit l i = false := by
  intro i hi
  have hTB : TARGET_BITS = 2 := rfl
  rw [hTB] at h hi
  cases l with
  | nil => simp at h
  | cons a t =>
    have ha : a = 0 := by simpa using congrArg (fun x => x.getD 0 255) h
    have hdiv : i / 8 = 0 := Nat.div_eq_of_lt (by omega)
    simp [hashBit, hdiv, ha]

/-- Claim C5 (confirmed): every block `Block::new` returns stores exactly the
double SHA-256 of the bincode serialization of
`(prev_block_hash, data, timestamp, TARGET_BITS, nonce)`, and the first
`TARGET_BITS` bits of that hash are zero (the code in fact zeroes the first
`TARGET_BITS` whole bytes, which implies it). -/
theorem c5_block_new_pow (sha : List Nat → List Nat) (fuel : Nat) (data : String)
    (prev : List Nat) (ts : Nat) (b : Block) :
    Block.new sha fuel data prev ts = some b →
      b.hash = sha (sha b.prepare_hash_data) ∧
        b.hash.take TARGET_BITS = List.replicate TARGET_BITS 0 ∧
        ∀ i, i < TARGET_BITS → hashBit b.hash i = false := by
  intro h
  obtain ⟨h1, h2⟩ := Block.run_proof_of_work_spec sha fuel _ b h
  exact ⟨h1, h2, hashBit_zero_of_take b.hash h2⟩

/-- The mined block of the degenerate-hash witness scenario. -/
def bW5 : Block := ⟨7, "g", List.replicate 32 0, List.replicate 32 0, 0⟩

/-- Witness for C5: with the degenerate hash function the proof-of-work
search succeeds immediately and the conclusion holds of the returned block. -/
theorem c5_block_new_pow_witness :
    bW5.hash = shaZ (shaZ bW5.prepare_hash_data) ∧
      bW5.hash.take TARGET_BITS = List.replicate TARGET_BITS 0 ∧
      ∀ i, i < TARGET_BITS → hashBit bW5.hash i = false :=
  c5_block_new_pow shaZ 1 "g" (List.replicate 32 0) 7 bW5 (by decide)

/-! ## Claim C10 -/

/-- Claim C10 (confirmed): `Transaction::sign` applied to a coinbase
transaction returns `Ok` at once with the transaction unchanged — its single
input signature stays empty and the id is not recomputed, because the
coinbase early return fires before any mutation. -/
theorem c10_sign_coinbase_identity (sha : List Nat → List Nat)
    (pv : List Nat → Bool) (sg : List Nat → List Nat → List Nat)
    (priv : List Nat) (prevs : List (String × Transaction)) (t : Transaction) :
    t.is_coinbase = true → t.sign sha pv sg priv prevs = RResult.ok t := by
  intro h
  simp [Transaction.sign, h]

/-- Witness for C10: signing the concrete coinbase `cbC1` returns it
unchanged. -/
theorem c10_sign_coinbase_identity_witness :
    cbC1.sign shaZ pvTrue sgOnes [9] [] = RResult.ok cbC1 :=
  c10_sign_coinbase_identity shaZ pvTrue sgOnes [9] [] cbC1 (by decide)

/-! ## Claim C7 -/

/-- Claim C7, amended part: when the first input's signature LENGTH is not
64 bytes (the referenced output being present and in range), `Transaction::verify`
returns `Ok(false)` without raising. -/
theorem c7_short_signature_ok_false (sha : List Nat → List Nat)
    (s1 : List Nat → Bool) (ev : List Nat → List Nat → Nat → Nat → Bool)
    (prevs : List (String × Transaction)) (t : Transaction)
    (vin : TXInput) (rest : List TXInput) (prev : Transaction)
    (hv : t.v_in = vin :: rest)
    (hl : lookupA prevs vin.tx_id = some prev)
    (hb : usizeCast vin.v_out < prev.v_out.length)
    (hs : vin.signature.length ≠ 64) :
    t.verify sha s1 ev prevs = RResult.ok false := by
  obtain ⟨out, ho⟩ : ∃ o, prev.v_out[usizeCast vin.v_out]? = some o :=
    ⟨_, List.getElem?_eq_getElem hb⟩
  simp [Transaction.verify, hv, Transaction.verifyGo, hl, ho, hs]

/-- A non-coinbase transaction whose single input carries a 3-byte
signature. -/
def tx7b : Transaction := ⟨"x", [⟨"aa", 0, [1, 2, 3], [2]⟩], [⟨10, [7]⟩]⟩

/-- Witness for C7 (amended): the 3-byte signature yields `Ok(false)`. -/
theorem c7_short_signature_ok_false_witness :
    tx7b.verify sha256 sTrue evTrue [("aa", t0C)] = RResult.ok false :=
  c7_short_signature_ok_false sha256 sTrue evTrue [("aa", t0C)] tx7b
    ⟨"aa", 0, [1, 2, 3], [2]⟩ [] t0C rfl (by decide) (by decide) (by decide)

/-- A non-coinbase transaction whose single input carries 64 zero bytes — 64
bytes long, but not a valid `r || s` encoding, since `r = s = 0` is rejected
by `Signature::from_scalars`. -/
def tx7z : Transaction := ⟨"x", [⟨"aa", 0, List.replicate 64 0, [2]⟩], [⟨10, [7]⟩]⟩

/-- Counterexample to C7 as stated: a signature that deviates from a valid
64-byte `r || s` encoding while still being 64 bytes long (all zeros) makes
`Transaction::verify` raise an error (`from_scalars` fails and the `?`
propagates), not return `Ok(false)`. -/
theorem c7_counterexample :
    tx7z.verify sha256 sTrue evTrue [("aa", t0C)] = RResult.errored ∧
      (RResult.errored : RResult Bool) ≠ RResult.ok false :=
  ⟨by decide, by decide⟩

/-! ## Claim C8 -/

/-- The previous-transactions prefetch loop panics as soon as some input's
referenced transaction is not found in the chain. -/
theorem buildPrevTxs_panics (c : Chain) :
    ∀ (vins : List TXInput) (acc : List (String × Transaction)),
      (∃ vin ∈ vins, find_transaction c vin.tx_id = none) →
      buildPrevTxs c vins acc = RResult.panicked := by
  intro vins
  induction vins with
  | nil => rintro acc ⟨vin, hmem, -⟩; simp at hmem
  | cons v rest ih =>
    rintro acc ⟨vin, hmem, hnone⟩
    rw [buildPrevTxs]
    cases hf : find_transaction c v.tx_id with
    | none => rfl
    | some prev =>
      rcases List.mem_cons.mp hmem with h | h
      · subst h; rw [hf] at hnone; cases hnone
      · exact ih _ ⟨vin, h, hnone⟩

/-- Claim C8, amended: a transaction with an input whose referenced previous
transaction is not in the chain makes `Blockchain::verify_transaction` and
`Blockchain::sign_transaction` PANIC (`find_transaction(..).unwrap()` on
`None`) — they neither succeed nor return an error value. -/
theorem c8_missing_prev_panics (sha : List Nat → List Nat)
    (s1 : List Nat → Bool) (ev : List Nat → List Nat → Nat → Nat → Bool)
    (pv : List Nat → Bool) (sg : List Nat → List Nat → List Nat)
    (c : Chain) (t : Transaction) (priv : List Nat)
    (hex : ∃ vin ∈ t.v_in, find_transaction c vin.tx_id = none) :
    verify_transaction sha s1 ev c t = RResult.panicked ∧
      sign_transaction sha pv sg c t priv = RResult.panicked := by
  have hb := buildPrevTxs_panics c t.v_in [] hex
  constructor <;> simp [verify_transaction, sign_transaction, hb, RResult.bind]

/-- A transaction referencing the absent previous transaction id `"zz"`. -/
def txC8 : Transaction := ⟨"x8", [⟨"zz", 0, [1], [2]⟩], [⟨1, [5]⟩]⟩

/-- Witness for C8 (amended): on the concrete one-block chain, both entry
points panic for `txC8`. -/
theorem c8_missing_prev_panics_witness :
    verify_transaction sha256 sTrue evTrue chainC3 txC8 = RResult.panicked ∧
      sign_transaction sha256 pvTrue sgOnes chainC3 txC8 [1] = RResult.panicked :=
  c8_missing_prev_panics sha256 sTrue evTrue pvTrue sgOnes chainC3 txC8 [1]
    ⟨⟨"zz", 0, [1], [2]⟩, by decide, by decide⟩

/-- Counterexample to C8 as stated: the failure is a panic, not a returned
`MissingPrevTx` (or any) error value. -/
theorem c8_counterexample :
    verify_transaction sha256 sTrue evTrue chainC3 txC8 = RResult.panicked ∧
      (RResult.panicked : RResult Bool) ≠ RResult.errored :=
  ⟨by decide, by decide⟩

/-! ## Claim C3 -/

/-- Inversion of a successful `bind`: the first computation succeeded and the
continuation succeeded on its value. -/
theorem RResult.bind_ok {α β : Type} (x : RResult α) (f : α → RResult β) (b : β)
    (h : x.bind f = .ok b) : ∃ a, x = .ok a ∧ f a = .ok b := by
  cases x with
  | panicked => simp [RResult.bind] at h
  | errored => simp [RResult.bind] at h
  | ok a => exact ⟨a, rfl, h⟩

/-- Clearing the signature of an input whose signature is already empty is
the identity. -/
theorem clearSig_of_empty (i : TXInput) (h : i.signature = []) :
    ({ i with signature := [] } : TXInput) = i := by
  cases i; simp_all

/-- Clearing signatures over a list of signature-free inputs is the
identity. -/
theorem map_clearSig_of_empty (l : List TXInput) (h : ∀ i ∈ l, i.signature = []) :
    l.map (fun i => { i with signature := [] }) = l := by
  induction l with
  | nil => rfl
  | cons a rest ih =>
    simp only [List.map_cons]
    rw [clearSig_of_empty a (h a (by simp)), ih (fun i hi => h i (by simp [hi]))]

/-- Whatever `signGo` produces differs from the enumerated original inputs
only in the signatures. -/
theorem Transaction.signGo_shape (sha : List Nat → List Nat) (pv : List Nat → Bool)
    (sg : List Nat → List Nat → List Nat) (priv : List Nat)
    (prevs : List (String × Transaction)) :
    ∀ (pairs : List (Nat × TXInput)) (txc : Transaction) (ins : List TXInput),
      Transaction.signGo sha pv sg priv prevs pairs txc = RResult.ok ins →
      ins.map (fun i => { i with signature := [] }) =
        (pairs.map Prod.snd).map (fun i => { i with signature := [] }) := by
  intro pairs
  induction pairs with
  | nil =>
    intro txc ins h
    rw [Transaction.signGo] at h
    cases h
    rfl
  | cons p rest ih =>
    obtain ⟨i, vin⟩ := p
    intro txc ins h
    rw [Transaction.signGo] at h
    split at h
    · cases h
    · split at h
      · cases h
      · split at h
        · obtain ⟨restIns, hrec, hok⟩ := RResult.bind_ok _ _ _ h
          injection hok with h2
          subst h2
          simp only [List.map_cons]
          exact congrArg₂ List.cons rfl (ih _ restIns hrec)
        · cases h

/-- A successfully signed transaction keeps its id and outputs, and its
inputs differ from the original only in the signatures. -/
theorem Transaction.sign_shape (sha : List Nat → List Nat) (pv : List Nat → Bool)
    (sg : List Nat → List Nat → List Nat) (priv : List Nat)
    (prevs : List (String × Transaction)) (t tx2 : Transaction)
    (h : t.sign sha pv sg priv prevs = RResult.ok tx2) :
    tx2.id = t.id ∧ tx2.v_out = t.v_out ∧
      tx2.v_in.map (fun i => { i with signature := [] }) =
        t.v_in.map (fun i => { i with signature := [] }) := by
  rw [Transaction.sign] at h
  by_cases hc : t.is_coinbase
  · rw [if_pos hc] at h
    injection h with h2
    subst h2
    exact ⟨rfl, rfl, rfl⟩
  · rw [if_neg hc] at h
    obtain ⟨ins, hrec, hok⟩ := RResult.bind_ok _ _ _ h
    injection hok with h2
    subst h2
    refine ⟨rfl, rfl, ?_⟩
    have hgo := Transaction.signGo_shape sha pv sg priv prevs t.v_in.enum t.trimmed_copy ins hrec
    simpa [List.enum_map_snd] using hgo

/-- Claim C3 (corrected): the id-determinism invariant holds as stated for
`new_coinbase`; for `new_utxo` the id commits to the transaction with its
input signatures CLEARED, because `set_id` runs before signing and the id is
not recomputed afterwards — so the returned (signed) transaction's id is the
hash of the returned transaction with id and signatures cleared, not with the
signatures as returned. -/
theorem c3_id_commits_to_unsigned :
    (∀ (sha : List Nat → List Nat) (fb : String → List Nat) (to_ data : String),
        (new_coinbase sha fb to_ data).id =
          hexEncode (sha (encodeTransaction (new_coinbase sha fb to_ data).clearId))) ∧
    (∀ (sha : List Nat → List Nat) (hpk : List Nat → List Nat)
        (fb : String → List Nat) (pv : List Nat → Bool)
        (sg : List Nat → List Nat → List Nat) (wallets : List (String × Wallet))
        (c : Chain) (from_ to_ : String) (amount : Int) (tx : Transaction),
        new_utxo sha hpk fb pv sg wallets c from_ to_ amount = RResult.ok tx →
        tx.id = hexEncode (sha (encodeTransaction tx.clearId.clearSigs))) := by
  constructor
  · intro sha fb to_ data
    rfl
  · intro sha hpk fb pv sg wallets c from_ to_ amount tx h
    rw [new_utxo] at h
    split at h
    · cases h
    · rename_i w hw
      simp only [] at h
      split at h
      · cases h
      · rename_i hnotlt
        rw [sign_transaction] at h
        obtain ⟨prevs, hbp, hsign⟩ := RResult.bind_ok _ _ _ h
        obtain ⟨hid, hout, hins⟩ := Transaction.sign_shape _ _ _ _ _ _ _ hsign
        have hsigs : ∀ i ∈ (find_spendable_outputs hpk c (hpk w.public_key) amount).2.flatMap
            (fun p => p.2.map (fun o =>
              ({ tx_id := p.1, v_out := o, signature := [], pub_key := w.public_key } : TXInput))),
            i.signature = [] := by
          intro i hi
          simp only [List.mem_flatMap, List.mem_map] at hi
          obtain ⟨p, -, o, -, rfl⟩ := hi
          rfl
        show tx.id = hexEncode (sha (encodeTransaction
          ⟨"", tx.v_in.map (fun i => { i with signature := [] }), tx.v_out⟩))
        rw [hid, hout, hins]
        simp only [Transaction.set_id]
        rw [map_clearSig_of_empty _ hsigs]
        rfl

/-- The transaction `new_utxo` returns in the concrete scenario (send 4 from
the owner of hash `[5]` with a 10-valued coinbase output available: one
signed input spending `("aa", 0)`, a 4-payment and a 6-change output).  Its
id is the SHA-256 (computed by the embedded FIPS 180-4 code) of its encoding
BEFORE the 64 signature bytes were written. -/
def c3resTx : Transaction :=
  ⟨"1a1ba7954e1d87d7bd0c8d5df1fd8031b9412d4dc874513416b42af531ff5146",
   [⟨"aa", 0, List.replicate 64 1, [2]⟩], [⟨4, [7]⟩, ⟨6, [5]⟩]⟩

/-- Counterexample to C3 as stated: the scenario run of `new_utxo` returns
`c3resTx`, whose id is NOT the hash of the returned transaction with only the
id cleared and the signatures exactly as returned. -/
theorem c3_counterexample :
    new_utxo sha256 hpkC fbC pvTrue sgOnes walletsC chainC3 "FADDR" "TADDR" 4 =
        RResult.ok c3resTx ∧
      c3resTx.id ≠ hexEncode (sha256 (encodeTransaction c3resTx.clearId)) :=
  ⟨by decide, by decide⟩

/-- Witness for C3 (amended): the id of the scenario transaction is the hash
of the returned transaction with id AND signatures cleared. -/
theorem c3_id_commits_to_unsigned_witness :
    c3resTx.id = hexEncode (sha256 (encodeTransaction c3resTx.clearId.clearSigs)) :=
  c3_id_commits_to_unsigned.2 sha256 hpkC fbC pvTrue sgOnes walletsC chainC3
    "FADDR" "TADDR" 4 c3resTx (by decide)

/-! ## Claim C9 -/

/-- Claim C9 (confirmed): decoding the address built by `Wallet::get_address`
recovers the public-key hash: with the external base58 pair round-tripping on
the versioned payload (and the hash long enough for a 4-byte checksum),
`get_pub_key_hash (get_address w) = hash_pub_key(pub)`. -/
theorem c9_address_roundtrip (sha : List Nat → List Nat)
    (hpk : List Nat → List Nat) (enc : List Nat → String) (dec : String → List Nat)
    (w : Wallet)
    (hlen : 4 ≤ (sha (sha (0 :: hpk w.public_key))).length)
    (hrt : dec (enc ((0 :: hpk w.public_key) ++ checksumW sha (0 :: hpk w.public_key))) =
      (0 :: hpk w.public_key) ++ checksumW sha (0 :: hpk w.public_key)) :
    get_pub_key_hash dec (w.get_address sha hpk enc) = hpk w.public_key := by
  have hc : (checksumW sha (0 :: hpk w.public_key)).length = 4 := by
    simp [checksumW]
    omega
  show List.take
      ((dec (enc ((0 :: hpk w.public_key) ++ checksumW sha (0 :: hpk w.public_key)))).length - 5)
      (List.drop 1 (dec (enc ((0 :: hpk w.public_key) ++
        checksumW sha (0 :: hpk w.public_key))))) = hpk w.public_key
  rw [hrt]
  simp only [List.cons_append, List.drop_succ_cons, List.drop_zero, List.length_cons,
    List.length_append, hc]
  have : (hpk w.public_key).length + 4 + 1 - 5 = (hpk w.public_key).length := by omega
  rw [this, List.take_left]

/-- The wallet of the address round-trip witness. -/
def wW : Wallet := ⟨[9], [4, 20]⟩

/-- Concrete stand-in for `hash_pub_key` in the address round-trip witness. -/
def hpkW : List Nat → List Nat := fun _ => [1, 2, 3]

/-- Witness for C9: with the real SHA-256 checksum and the executable base58
codec, the concrete wallet's address decodes back to its public-key hash. -/
theorem c9_address_roundtrip_witness :
    get_pub_key_hash fromBase58 (wW.get_address sha256 hpkW toBase58) = hpkW wW.public_key :=
  c9_address_roundtrip sha256 hpkW toBase58 fromBase58 wW (by decide) (by decide)

/-! ## Claim C6 -/

/-- Looking up the key just inserted yields the inserted value. -/
theorem storeGet_storeInsert_self (st : UtxoStore) (k : String) (v : List TXOutput) :
    storeGet (storeInsert st k v) k = some v := by
  induction st with
  | nil => simp [storeInsert, storeGet]
  | cons p rest ih =>
    obtain ⟨k0, v0⟩ := p
    by_cases h : k0 = k
    · simp [storeInsert, h, storeGet]
    · simp [storeInsert, h, storeGet, ih]

/-- Insertion leaves every other key unchanged. -/
theorem storeGet_storeInsert_ne (st : UtxoStore) (k : String) (v : List TXOutput)
    (k2 : String) (h : k2 ≠ k) : storeGet (storeInsert st k v) k2 = storeGet st k2 := by
  induction st with
  | nil => simp [storeInsert, storeGet, Ne.symm h]
  | cons p rest ih =>
    obtain ⟨k0, v0⟩ := p
    by_cases h0 : k0 = k
    · subst h0
      simp [storeInsert, storeGet, Ne.symm h]
    · by_cases h2 : k0 = k2
      · simp [storeInsert, h0, storeGet, h2, h]
      · simp [storeInsert, h0, storeGet, h2, ih]

/-- The removed key is gone. -/
theorem storeGet_storeRemove_self (st : UtxoStore) (k : String) :
    storeGet (storeRemove st k) k = none := by
  induction st with
  | nil => simp [storeRemove, storeGet]
  | cons p rest ih =>
    obtain ⟨k0, v0⟩ := p
    by_cases h : k0 = k
    · simp [storeRemove, h, ih]
    · simp [storeRemove, h, storeGet, ih]

/-- Removal leaves every other key unchanged. -/
theorem storeGet_storeRemove_ne (st : UtxoStore) (k k2 : String) (h : k2 ≠ k) :
    storeGet (storeRemove st k) k2 = storeGet st k2 := by
  induction st with
  | nil => simp [storeRemove, storeGet]
  | cons p rest ih =>
    obtain ⟨k0, v0⟩ := p
    by_cases h0 : k0 = k
    · subst h0
      simp [storeRemove, storeGet, Ne.symm h, ih]
    · simp [storeRemove, h0, storeGet, ih]

/-- After `applySpend` the record holds the kept outputs, or is gone when
none survive. -/
theorem applySpend_get_self (st : UtxoStore) (k : String) (kept : List TXOutput) :
    storeGet (applySpend st k kept) k = if kept.isEmpty then none else some kept := by
  by_cases h : kept.isEmpty <;>
    simp [applySpend, h, storeGet_storeRemove_self, storeGet_storeInsert_self]

/-- `applySpend` leaves every other key unchanged. -/
theorem applySpend_get_ne (st : UtxoStore) (k : String) (kept : List TXOutput)
    (k2 : String) (h : k2 ≠ k) :
    storeGet (applySpend st k kept) k2 = storeGet st k2 := by
  by_cases he : kept.isEmpty <;>
    simp [applySpend, he, storeGet_storeRemove_ne _ _ _ h, storeGet_storeInsert_ne _ _ _ _ h]

/-- The input loop of `UTXOSet::update`, specified: when the referenced
records are present and the referenced ids are pairwise distinct, the loop
succeeds, each referenced record ends up shrunk by its consumed index
(removed when empty), and every other key is untouched. -/
theorem updateVins_spec :
    ∀ (vins : List TXInput) (st : UtxoStore),
      (vins.map TXInput.tx_id).Nodup →
      (∀ vin ∈ vins, (storeGet st vin.tx_id).isSome = true) →
      ∃ stF, updateVins st vins = RResult.ok stF ∧
        (∀ vin ∈ vins, ∀ outs0, storeGet st vin.tx_id = some outs0 →
          storeGet stF vin.tx_id = (if (dropIdx outs0 vin.v_out).isEmpty then none
            else some (dropIdx outs0 vin.v_out))) ∧
        (∀ k, k ∉ vins.map TXInput.tx_id → storeGet stF k = storeGet st k) := by
  intro vins
  induction vins with
  | nil =>
    intro st _ _
    exact ⟨st, rfl, by simp, fun k _ => rfl⟩
  | cons vin rest ih =>
    intro st hnd hpres
    rw [List.map_cons, List.nodup_cons] at hnd
    obtain ⟨hnotin, hndr⟩ := hnd
    obtain ⟨outs0, houts0⟩ := Option.isSome_iff_exists.mp (hpres vin (by simp))
    have hpres2 : ∀ v ∈ rest, (storeGet (applySpend st vin.tx_id (dropIdx outs0 vin.v_out))
        v.tx_id).isSome = true := by
      intro v hv
      have hne : v.tx_id ≠ vin.tx_id := fun he => hnotin (he ▸ List.mem_map_of_mem _ hv)
      rw [applySpend_get_ne _ _ _ _ hne]
      exact hpres v (by simp [hv])
    obtain ⟨stF, hrun, hspent, hframe⟩ :=
      ih (applySpend st vin.tx_id (dropIdx outs0 vin.v_out)) hndr hpres2
    refine ⟨stF, ?_, ?_, ?_⟩
    · simp [updateVins, updateVin, houts0, RResult.bind, hrun]
    · intro v hv outs1 houts1
      rcases List.mem_cons.mp hv with rfl | hv2
      · rw [houts0] at houts1
        injection houts1 with he
        subst he
        rw [hframe _ hnotin, applySpend_get_self]
      · have hne : v.tx_id ≠ vin.tx_id := fun he => hnotin (he ▸ List.mem_map_of_mem _ hv2)
        exact hspent v hv2 outs1 (by rwa [applySpend_get_ne _ _ _ _ hne])
    · intro k hk
      have hk1 : k ≠ vin.tx_id := by simp at hk; exact hk.1
      have hk2 : k ∉ rest.map TXInput.tx_id := by simp at hk ⊢; exact hk.2
      rw [hframe _ hk2, applySpend_get_ne _ _ _ _ hk1]

/-- The previous-transaction ids referenced by a transaction's inputs (none
for a coinbase, whose inputs `update` skips). -/
def refsTx (t : Transaction) : List String :=
  if t.is_coinbase then [] else t.v_in.map TXInput.tx_id

/-- All ids referenced by the non-coinbase inputs of a block's
transactions. -/
def blockRefs (txs : List Transaction) : List String := txs.flatMap refsTx

/-- The store keys one `update` transaction step may write: the records it
spends from and its own id. -/
def touchedTx (t : Transaction) : List String := refsTx t ++ [t.id]

/-- All store keys an `update` run over a block may write. -/
def blockTouched (txs : List Transaction) : List String := txs.flatMap touchedTx

/-- A key outside a transaction's spent ids and different from its own id is
outside its touched set. -/
theorem notin_touchedTx_of (t : Transaction) (k : String) (hid : k ≠ t.id)
    (hrefs : k ∉ refsTx t) : k ∉ touchedTx t := by
  intro hk
  rcases List.mem_append.mp hk with hk1 | hk2
  · exact hrefs hk1
  · simp at hk2; exact hid hk2

/-- A key that no transaction of the list references (via a non-coinbase
input) and whose id no transaction of the list carries is outside the
list's touched set. -/
theorem notin_blockTouched_of (txs : List Transaction) (k : String)
    (hids : k ∉ txs.map Transaction.id)
    (hrefs : ∀ t2 ∈ txs, t2.is_coinbase = false → ∀ vin ∈ t2.v_in, vin.tx_id ≠ k) :
    k ∉ blockTouched txs := by
  intro hmem
  obtain ⟨t2, ht2, hk⟩ := List.mem_flatMap.mp hmem
  rcases List.mem_append.mp hk with hk1 | hk2
  · by_cases hcb : t2.is_coinbase = true
    · simp [refsTx, hcb] at hk1
    · have hcbf : t2.is_coinbase = false := by simpa using hcb
      rw [refsTx, if_neg (by simp [hcbf])] at hk1
      obtain ⟨vin, hvin, he⟩ := List.mem_map.mp hk1
      exact hrefs t2 ht2 hcbf vin hvin he
  · simp at hk2
    exact hids (hk2 ▸ List.mem_map_of_mem _ ht2)

/-- One transaction step of `UTXOSet::update`, specified: the step succeeds
(under presence and distinctness of its spent records), stores the
transaction's own outputs under its id, shrinks each spent record by the
consumed index — provided the spent id is not the transaction's own id — and
touches no other key. -/
theorem updateTx_spec (st : UtxoStore) (t : Transaction)
    (hnd : t.is_coinbase = false → (t.v_in.map TXInput.tx_id).Nodup)
    (hpres : t.is_coinbase = false → ∀ vin ∈ t.v_in, (storeGet st vin.tx_id).isSome = true) :
    ∃ st1, updateTx st t = RResult.ok st1 ∧
      storeGet st1 t.id = some t.v_out ∧
      (t.is_coinbase = false → ∀ vin ∈ t.v_in, vin.tx_id ≠ t.id → ∀ outs0,
        storeGet st vin.tx_id = some outs0 →
        storeGet st1 vin.tx_id = (if (dropIdx outs0 vin.v_out).isEmpty then none
          else some (dropIdx outs0 vin.v_out))) ∧
      (∀ k, k ∉ touchedTx t → storeGet st1 k = storeGet st k) := by
  by_cases hcb : t.is_coinbase = true
  · refine ⟨storeInsert st t.id t.v_out, ?_, storeGet_storeInsert_self st t.id t.v_out, ?_, ?_⟩
    · simp [updateTx, hcb, RResult.bind]
    · intro hfalse; rw [hcb] at hfalse; cases hfalse
    · intro k hk
      have hkid : k ≠ t.id := by
        intro he; exact hk (by simp [touchedTx, he])
      exact storeGet_storeInsert_ne st t.id t.v_out k hkid
  · have hcbf : t.is_coinbase = false := by simpa using hcb
    obtain ⟨st2, hrunV, gV, gVf⟩ := updateVins_spec t.v_in st (hnd hcbf) (hpres hcbf)
    refine ⟨storeInsert st2 t.id t.v_out, ?_,
      storeGet_storeInsert_self st2 t.id t.v_out, ?_, ?_⟩
    · simp [updateTx, hcbf, hrunV, RResult.bind]
    · intro _ vin hvin hne outs0 houts0
      rw [storeGet_storeInsert_ne _ _ _ _ hne]
      exact gV vin hvin outs0 houts0
    · intro k hk
      have hkid : k ≠ t.id := fun he => hk (by simp [touchedTx, he])
      have hkrefs : k ∉ t.v_in.map TXInput.tx_id := by
        intro hmem
        exact hk (List.mem_append.mpr (Or.inl (by simpa [refsTx, hcbf] using hmem)))
      rw [storeGet_storeInsert_ne _ _ _ _ hkid, gVf _ hkrefs]

/-- The transaction loop of `UTXOSet::update`, specified, by induction over
the block's transactions. -/
theorem updateTxs_spec :
    ∀ (txs : List Transaction) (st : UtxoStore),
      (txs.map Transaction.id).Nodup →
      (∀ t ∈ txs, t.is_coinbase = false → ∀ vin ∈ t.v_in,
        (storeGet st vin.tx_id).isSome = true ∧ vin.tx_id ∉ txs.map Transaction.id) →
      (blockRefs txs).Nodup →
      ∃ stF, updateTxs st txs = RResult.ok stF ∧
        (∀ t ∈ txs, storeGet stF t.id = some t.v_out) ∧
        (∀ t ∈ txs, t.is_coinbase = false → ∀ vin ∈ t.v_in, ∀ outs0,
          storeGet st vin.tx_id = some outs0 →
          storeGet stF vin.tx_id = (if (dropIdx outs0 vin.v_out).isEmpty then none
            else some (dropIdx outs0 vin.v_out))) ∧
        (∀ k, k ∉ blockTouched txs → storeGet stF k = storeGet st k) := by
  intro txs
  induction txs with
  | nil =>
    intro st _ _ _
    exact ⟨st, rfl, by simp, by simp, fun k _ => rfl⟩
  | cons t rest ih =>
    intro st h1 h2 h3
    rw [List.map_cons, List.nodup_cons] at h1
    obtain ⟨hidnotin, h1r⟩ := h1
    have h3' : blockRefs (t :: rest) = refsTx t ++ blockRefs rest := by
      simp [blockRefs]
    rw [h3', List.nodup_append] at h3
    obtain ⟨hndt, hndrest, hdisj⟩ := h3
    have hstepnd : t.is_coinbase = false → (t.v_in.map TXInput.tx_id).Nodup := by
      intro hcbf
      rwa [refsTx, if_neg (by simp [hcbf])] at hndt
    have hsteppres : t.is_coinbase = false →
        ∀ vin ∈ t.v_in, (storeGet st vin.tx_id).isSome = true := by
      intro hcbf vin hvin
      exact (h2 t (by simp) hcbf vin hvin).1
    obtain ⟨st1, hrun1, g1self, g1spend, g1frame⟩ := updateTx_spec st t hstepnd hsteppres
    -- a referenced id of a rest transaction is outside the head's touched set
    have hRefNotTouched : ∀ t2 ∈ rest, t2.is_coinbase = false → ∀ vin ∈ t2.v_in,
        vin.tx_id ∉ touchedTx t := by
      intro t2 ht2 hcbf vin hvin
      have hninids := (h2 t2 (by simp [ht2]) hcbf vin hvin).2
      have hidne : vin.tx_id ≠ t.id := fun he => hninids (by simp [he])
      have hinrest : vin.tx_id ∈ blockRefs rest := by
        refine List.mem_flatMap.mpr ⟨t2, ht2, ?_⟩
        rw [refsTx, if_neg (by simp [hcbf])]
        exact List.mem_map_of_mem _ hvin
      exact notin_touchedTx_of t vin.tx_id hidne (fun hin => hdisj hin hinrest)
    have hpresR : ∀ t2 ∈ rest, t2.is_coinbase = false → ∀ vin ∈ t2.v_in,
        (storeGet st1 vin.tx_id).isSome = true ∧ vin.tx_id ∉ rest.map Transaction.id := by
      intro t2 ht2 hcbf vin hvin
      obtain ⟨hsome, hninids⟩ := h2 t2 (by simp [ht2]) hcbf vin hvin
      refine ⟨?_, fun hmem => hninids (by simp [hmem])⟩
      rwa [g1frame _ (hRefNotTouched t2 ht2 hcbf vin hvin)]
    obtain ⟨stF, hrunR, gR1, gR2, gRf⟩ := ih st1 h1r hpresR hndrest
    -- the head's own id and its referenced ids survive the rest untouched
    have hHeadIdNotTouched : t.id ∉ blockTouched rest := by
      refine notin_blockTouched_of rest t.id hidnotin ?_
      intro t2 ht2 hcbf vin hvin he
      exact (h2 t2 (by simp [ht2]) hcbf vin hvin).2 (by simp [he])
    refine ⟨stF, ?_, ?_, ?_, ?_⟩
    · simp only [updateTxs]
      rw [hrun1]
      simpa [RResult.bind] using hrunR
    · intro t2 ht2
      rcases List.mem_cons.mp ht2 with rfl | hmem
      · rw [gRf _ hHeadIdNotTouched, g1self]
      · exact gR1 t2 hmem
    · intro t2 ht2 hcbf vin hvin outs0 houts0
      rcases List.mem_cons.mp ht2 with rfl | hmem
      · have hninids := (h2 t2 (by simp) hcbf vin hvin).2
        have hidne : vin.tx_id ≠ t2.id := fun he => hninids (by simp [he])
        have hnotTouchedR : vin.tx_id ∉ blockTouched rest := by
          refine notin_blockTouched_of rest vin.tx_id
            (fun hmem2 => hninids (by simp [hmem2])) ?_
          intro t3 ht3 hcbf3 vin3 hvin3 he3
          -- a rest ref equal to a head ref violates disjointness of blockRefs
          have hin3 : vin3.tx_id ∈ blockRefs rest := by
            refine List.mem_flatMap.mpr ⟨t3, ht3, ?_⟩
            rw [refsTx, if_neg (by simp [hcbf3])]
            exact List.mem_map_of_mem _ hvin3
          have hint : vin.tx_id ∈ refsTx t2 := by
            rw [refsTx, if_neg (by simp [hcbf])]
            exact List.mem_map_of_mem _ hvin
          exact hdisj hint (he3 ▸ hin3)
        rw [gRf _ hnotTouchedR]
        exact g1spend hcbf vin hvin hidne outs0 houts0
      · have hst1 : storeGet st1 vin.tx_id = some outs0 := by
          rwa [g1frame _ (hRefNotTouched t2 hmem hcbf vin hvin)]
        exact gR2 t2 hmem hcbf vin hvin outs0 hst1
    · intro k hk
      have hk1 : k ∉ touchedTx t := fun hin => hk (by simp [blockTouched, hin])
      have hk2 : k ∉ blockTouched rest := by
        intro hin
        obtain ⟨t2, ht2, hmem⟩ := List.mem_flatMap.mp hin
        exact hk (List.mem_flatMap.mpr ⟨t2, by simp [ht2], hmem⟩)
      rw [gRf _ hk2, g1frame _ hk1]

/-- Claim C6 (corrected, restricted): after `UTXOSet::update(block)` — when
the block's transaction ids are distinct, every id spent by a non-coinbase
input is present in the store, is not the id of a block transaction, and no
two inputs of the block reference the same previous id — every consumed
record is shrunk by the consumed output position (removed when it empties),
every block transaction gets a record with its full output list, and no
other key changes.  (Without the one-input-per-previous-id restriction the
claim fails: the drop is positional on the already-shrunk list, see the
counterexample.) -/
theorem c6_update_spec (b : ChainBlock) (st : UtxoStore)
    (h1 : (b.transactions.map Transaction.id).Nodup)
    (h2 : ∀ t ∈ b.transactions, t.is_coinbase = false → ∀ vin ∈ t.v_in,
      (storeGet st vin.tx_id).isSome = true ∧
        vin.tx_id ∉ b.transactions.map Transaction.id)
    (h3 : (blockRefs b.transactions).Nodup) :
    ∃ stF, utxo_update st b = RResult.ok stF ∧
      (∀ t ∈ b.transactions, storeGet stF t.id = some t.v_out) ∧
      (∀ t ∈ b.transactions, t.is_coinbase = false → ∀ vin ∈ t.v_in, ∀ outs0,
        storeGet st vin.tx_id = some outs0 →
        storeGet stF vin.tx_id = (if (dropIdx outs0 vin.v_out).isEmpty then none
          else some (dropIdx outs0 vin.v_out))) ∧
      (∀ k, k ∉ blockTouched b.transactions → storeGet stF k = storeGet st k) :=
  updateTxs_spec b.transactions st h1 h2 h3

/-- Witness scenario for C6: a store with one two-output record. -/
def stW6 : UtxoStore := [("P", [⟨5, [1]⟩, ⟨7, [2]⟩])]

/-- Witness scenario block: a coinbase plus a transaction spending
`("P", 0)`. -/
def blkW6 : ChainBlock :=
  ⟨[⟨"C", [⟨"", -1, [], [3]⟩], [⟨10, [3]⟩]⟩, ⟨"S", [⟨"P", 0, [], [4]⟩], [⟨5, [4]⟩]⟩], [0], [1]⟩

/-- Witness for C6 (amended): the concrete block satisfies the restrictions
and `update` behaves as specified. -/
theorem c6_update_spec_witness :
    ∃ stF, utxo_update stW6 blkW6 = RResult.ok stF ∧
      (∀ t ∈ blkW6.transactions, storeGet stF t.id = some t.v_out) ∧
      (∀ t ∈ blkW6.transactions, t.is_coinbase = false → ∀ vin ∈ t.v_in, ∀ outs0,
        storeGet stW6 vin.tx_id = some outs0 →
        storeGet stF vin.tx_id = (if (dropIdx outs0 vin.v_out).isEmpty then none
          else some (dropIdx outs0 vin.v_out))) ∧
      (∀ k, k ∉ blockTouched blkW6.transactions → storeGet stF k = storeGet stW6 k) :=
  c6_update_spec blkW6 stW6 (by decide) (by decide) (by decide)

/-- Counterexample scenario for C6: one record with three outputs. -/
def st6 : UtxoStore := [("X", [⟨1, [1]⟩, ⟨2, [2]⟩, ⟨3, [3]⟩])]

/-- A block transaction spending outputs 0 and 2 of record `"X"`. -/
def tx6 : Transaction := ⟨"N", [⟨"X", 0, [], []⟩, ⟨"X", 2, [], []⟩], [⟨9, [9]⟩]⟩

/-- The counterexample block. -/
def blk6 : ChainBlock := ⟨[tx6], [0], [1]⟩

/-- Counterexample to C6 as stated: the block spends outputs 0 and 2 of the
record `"X" -> [o0, o1, o2]`.  After the first input, the record holds
`[o1, o2]`; the second input then drops position 2 of the ALREADY-SHRUNK
list — which does not exist — so the output `o2 = (3, [3])` it consumed is
still in the stored record, where the claim requires it dropped (the claimed
final record for `"X"` is `[o1]`). -/
theorem c6_counterexample :
    utxo_update st6 blk6 =
        RResult.ok [("X", [⟨2, [2]⟩, ⟨3, [3]⟩]), ("N", [⟨9, [9]⟩])] ∧
      tx6.is_coinbase = false ∧
      (⟨"X", 2, [], []⟩ : TXInput) ∈ tx6.v_in ∧
      ((storeGet st6 "X").getD []).get? 2 = some ⟨3, [3]⟩ ∧
      (⟨3, [3]⟩ : TXOutput) ∈
        ((storeGet [("X", [⟨2, [2]⟩, ⟨3, [3]⟩]), ("N", [⟨9, [9]⟩])] "X").getD []) :=
  ⟨by decide, by decide, by decide, by decide, by decide⟩

/-! ## Claim C4 -/

/-- Reference predicate: some non-coinbase transaction of `txs` spends output
`(id, idx)` through an input owned by `pkh` (the only spends
`find_unspend_transactions` tracks). -/
def refSpentB (hpk : List Nat → List Nat) (pkh : List Nat) (txs : List Transaction)
    (id : String) (idx : Int) : Bool :=
  txs.any (fun t => !t.is_coinbase && t.v_in.any (fun i =>
    i.uses_key hpk pkh && i.tx_id == id && i.v_out == idx))

/-- Reference predicate: some non-coinbase transaction of `txs` references
`id` (at any output index) through an input owned by `pkh`. -/
def refsToB (hpk : List Nat → List Nat) (pkh : List Nat) (txs : List Transaction)
    (id : String) : Bool :=
  txs.any (fun t => !t.is_coinbase && t.v_in.any (fun i =>
    i.uses_key hpk pkh && i.tx_id == id))

/-- Well-ordered spends along the tip-to-genesis scan: at every position, the
transaction at the head is never referenced by itself or anything scanned
after it (spenders sit closer to the tip than what they spend — true of any
chain built by mining). -/
def refsOKB (hpk : List Nat → List Nat) (pkh : List Nat) : List Transaction → Bool
  | [] => true
  | t :: rest => !(refsToB hpk pkh (t :: rest) t.id) && refsOKB hpk pkh rest

/-- The reference answer: scanning `txs`, every output locked to `pkh` whose
`(id, index)` no `pkh`-owned input of `gtxs` spends, in order, once each. -/
def refUnspentOutputs (hpk : List Nat → List Nat) (pkh : List Nat)
    (gtxs txs : List Transaction) : List TXOutput :=
  txs.flatMap (fun t => (t.v_out.enum.filter (fun p =>
    p.2.is_locked_with_key pkh && !refSpentB hpk pkh gtxs t.id ((p.1 : Int)))).map
      (fun p => p.2))

/-- The `spend_txos` value accumulated by scanning a whole prefix of
transactions. -/
def markSpentAll (hpk : List Nat → List Nat) (pkh : List Nat)
    (txs : List Transaction) : SpendMap :=
  txs.foldl (fun m t => if t.is_coinbase then m else markSpent hpk pkh m t.v_in) []

/-- Membership in the map, one binding at a time. -/
theorem smContains_cons (k0 : String) (l : List Int) (rest : SpendMap)
    (k : String) (v : Int) :
    smContains ((k0, l) :: rest) k v =
      if k0 = k then l.contains v else smContains rest k v := by
  by_cases h : k0 = k <;> simp [smContains, lookupA, h]

/-- Membership in the map after one `push`. -/
theorem smContains_smAdd (m : SpendMap) (k : String) (v : Int) (k2 : String) (v2 : Int) :
    smContains (smAdd m k v) k2 v2 = (smContains m k2 v2 || (k == k2 && v == v2)) := by
  induction m with
  | nil =>
    rw [show smAdd ([] : SpendMap) k v = [(k, [v])] from rfl, smContains_cons]
    by_cases h : k = k2
    · subst h
      rw [Bool.eq_iff_iff]
      simp [smContains, lookupA, beq_iff_eq]
      exact eq_comm
    · simp [smContains, lookupA, h, beq_iff_eq]
  | cons p rest ih =>
    obtain ⟨k0, l⟩ := p
    rw [smAdd]
    by_cases h0 : k0 = k
    · rw [if_pos h0]
      subst h0
      rw [smContains_cons, smContains_cons]
      by_cases h2 : k0 = k2
      · subst h2
        rw [Bool.eq_iff_iff]
        simp [beq_iff_eq]
        exact or_congr Iff.rfl eq_comm
      · simp [h2, beq_iff_eq]
    · rw [if_neg h0]
      rw [smContains_cons, smContains_cons]
      by_cases h2 : k0 = k2
      · have hne : ¬ k = k2 := fun he => h0 (h2.trans he.symm)
        simp [h2, beq_iff_eq, hne]
      · simp [h2, ih]

/-- Membership in the map after recording one input list. -/
theorem smContains_markSpent (hpk : List Nat → List Nat) (pkh : List Nat) :
    ∀ (ins : List TXInput) (m : SpendMap) (k : String) (v : Int),
      smContains (markSpent hpk pkh m ins) k v =
        (smContains m k v ||
          ins.any (fun i => i.uses_key hpk pkh && i.tx_id == k && i.v_out == v)) := by
  intro ins
  induction ins with
  | nil => simp [markSpent]
  | cons i is ih =>
    intro m k v
    rw [markSpent, ih]
    by_cases hu : i.uses_key hpk pkh
    · rw [if_pos hu, smContains_smAdd]
      simp [hu, Bool.or_assoc]
    · rw [if_neg hu]
      simp [Bool.eq_false_iff.mpr hu]

/-- Membership in the accumulated map is exactly the reference spent
predicate over the scanned prefix. -/
theorem smContains_markSpentAll (hpk : List Nat → List Nat) (pkh : List Nat)
    (txs : List Transaction) (k : String) (v : Int) :
    smContains (markSpentAll hpk pkh txs) k v = refSpentB hpk pkh txs k v := by
  suffices hgen : ∀ (l : List Transaction) (m : SpendMap),
      smContains (l.foldl (fun m t => if t.is_coinbase then m
        else markSpent hpk pkh m t.v_in) m) k v =
        (smContains m k v || refSpentB hpk pkh l k v) by
    have := hgen txs []
    simpa [markSpentAll, smContains, lookupA] using this
  intro l
  induction l with
  | nil => simp [refSpentB]
  | cons t rest ih =>
    intro m
    rw [List.foldl_cons, ih]
    by_cases hc : t.is_coinbase
    · simp [refSpentB, hc]
    · rw [if_neg hc, smContains_markSpent]
      simp [refSpentB, Bool.eq_false_iff.mpr hc, Bool.or_assoc]

/-- Appending one more scanned transaction to the accumulated map. -/
theorem markSpentAll_append_one (hpk : List Nat → List Nat) (pkh : List Nat)
    (pre : List Transaction) (t : Transaction) :
    markSpentAll hpk pkh (pre ++ [t]) =
      (if t.is_coinbase then markSpentAll hpk pkh pre
        else markSpent hpk pkh (markSpentAll hpk pkh pre) t.v_in) := by
  simp [markSpentAll, List.foldl_append]

/-- The output loop of `find_unspend_transactions` pushes the transaction
once per enumerated output that is unrecorded in the spend map and locked to
the key. -/
theorem collectOuts_eq (pkh : List Nat) (t : Transaction) (m : SpendMap) :
    ∀ (l : List (Nat × TXOutput)),
      collectOuts pkh t m l =
        List.replicate (l.filter (fun p => !smContains m t.id (p.1 : Int) &&
          p.2.is_locked_with_key pkh)).length t := by
  intro l
  induction l with
  | nil => rfl
  | cons p rest ih =>
    obtain ⟨idx, o⟩ := p
    by_cases hs : smContains m t.id ((idx : Int))
    · simp [collectOuts, hs, ih, List.filter_cons]
    · by_cases hl : o.is_locked_with_key pkh <;>
        simp [collectOuts, hs, hl, ih, List.filter_cons, List.replicate_succ]

/-- Filtering by a stronger predicate yields at most as many elements. -/
theorem length_filter_le_of_imp {α : Type} (l : List α) (p q : α → Bool)
    (h : ∀ a, p a = true → q a = true) :
    (l.filter p).length ≤ (l.filter q).length := by
  induction l with
  | nil => exact le_refl 0
  | cons a rest ih =>
    by_cases hp : p a
    · simp [List.filter_cons, hp, h a hp]
      omega
    · by_cases hq : q a <;> simp [List.filter_cons, hp, hq] <;> omega

/-- Filtering the enumeration by a predicate on the element alone counts the
same elements as filtering the list. -/
theorem length_filter_enumFrom_snd (q : TXOutput → Bool) :
    ∀ (n : Nat) (l : List TXOutput),
      ((List.enumFrom n l).filter (fun p => q p.2)).length = (l.filter q).length := by
  intro n l
  induction l generalizing n with
  | nil => rfl
  | cons a rest ih =>
    by_cases hq : q a <;> simp [List.enumFrom, List.filter_cons, hq, ih]

/-- A `pkh`-owned spend of a specific output is in particular a `pkh`-owned
reference to its transaction id. -/
theorem refsToB_of_refSpentB (hpk : List Nat → List Nat) (pkh : List Nat)
    (txs : List Transaction) (k : String) (v : Int)
    (h : refSpentB hpk pkh txs k v = true) : refsToB hpk pkh txs k = true := by
  simp only [refSpentB, List.any_eq_true, Bool.and_eq_true] at h
  obtain ⟨t, ht, hcb, i, hi, hu⟩ := h
  simp only [refsToB, List.any_eq_true, Bool.and_eq_true]
  exact ⟨t, ht, hcb, i, hi, hu.1.1, hu.1.2⟩

/-- The reference spent predicate distributes over list append. -/
theorem refSpentB_append (hpk : List Nat → List Nat) (pkh : List Nat)
    (a b : List Transaction) (k : String) (v : Int) :
    refSpentB hpk pkh (a ++ b) k v = (refSpentB hpk pkh a k v || refSpentB hpk pkh b k v) := by
  simp [refSpentB, List.any_append]

/-- Well-orderedness restricts to a suffix. -/
theorem refsOKB_append_right (hpk : List Nat → List Nat) (pkh : List Nat) :
    ∀ (a b : List Transaction), refsOKB hpk pkh (a ++ b) = true → refsOKB hpk pkh b = true := by
  intro a
  induction a with
  | nil => intro b h; exact h
  | cons t rest ih =>
    intro b h
    rw [List.cons_append, refsOKB, Bool.and_eq_true] at h
    exact ih b h.2

/-- When a transaction has at most one output locked to the key, the pushed
copies flat-mapped through the matching-output filter list exactly the
filtered enumerated outputs. -/
theorem replicate_filter_piece (pkh : List Nat) (t : Transaction)
    (q : Nat × TXOutput → Bool)
    (himp : ∀ p, q p = true → p.2.is_locked_with_key pkh = true)
    (h1 : (t.v_out.filter (fun o => o.is_locked_with_key pkh)).length ≤ 1) :
    (List.replicate (t.v_out.enum.filter q).length t).flatMap
        (fun t2 => t2.v_out.filter (fun o => o.is_locked_with_key pkh)) =
      (t.v_out.enum.filter q).map (fun p => p.2) := by
  have hle : (t.v_out.enum.filter q).length ≤
      (t.v_out.filter (fun o => o.is_locked_with_key pkh)).length := by
    have hstep := length_filter_le_of_imp t.v_out.enum q
      (fun p => p.2.is_locked_with_key pkh) himp
    have henum : ((t.v_out.enum.filter (fun p => p.2.is_locked_with_key pkh))).length =
        (t.v_out.filter (fun o => o.is_locked_with_key pkh)).length := by
      rw [List.enum]
      exact length_filter_enumFrom_snd (fun o => o.is_locked_with_key pkh) 0 t.v_out
    omega
  cases hfl : t.v_out.enum.filter q with
  | nil => simp
  | cons p ps =>
    have hlen1 : ps.length + 1 ≤ 1 := by
      have := hle.trans h1
      rw [hfl] at this
      simpa using this
    have hps : ps = [] := by
      have : ps.length = 0 := by omega
      exact List.length_eq_zero.mp this
    subst hps
    have hpmemf : p ∈ t.v_out.enum.filter q := by rw [hfl]; simp
    have hpq : q p = true := (List.mem_filter.mp hpmemf).2
    have hpmem : p.2 ∈ t.v_out := by
      have hme := List.mem_map_of_mem Prod.snd (List.mem_filter.mp hpmemf).1
      rwa [List.enum_map_snd] at hme
    have hpF : p.2 ∈ t.v_out.filter (fun o => o.is_locked_with_key pkh) :=
      List.mem_filter.mpr ⟨hpmem, himp p hpq⟩
    have hFeq : t.v_out.filter (fun o => o.is_locked_with_key pkh) = [p.2] := by
      cases hF : t.v_out.filter (fun o => o.is_locked_with_key pkh) with
      | nil => rw [hF] at hpF; cases hpF
      | cons a as =>
        have hlen : as.length = 0 := by
          have := h1
          rw [hF] at this
          simpa using this
        have has : as = [] := List.length_eq_zero.mp hlen
        subst has
        rw [hF] at hpF
        simp only [List.mem_singleton] at hpF
        rw [hpF]
    simp [hFeq]

/-- The scan of `find_unspend_transactions` over a suffix, given the spend
map accumulated over the matching prefix: flat-mapping the pushed
transactions through the matching-output filter yields exactly the reference
unspent outputs, under the well-ordering and at-most-one-matching-output
assumptions. -/
theorem futGo_pre (hpk : List Nat → List Nat) (pkh : List Nat) :
    ∀ (txs pre : List Transaction),
      refsOKB hpk pkh (pre ++ txs) = true →
      (∀ t ∈ txs, (t.v_out.filter (fun o => o.is_locked_with_key pkh)).length ≤ 1) →
      (futGo hpk pkh (markSpentAll hpk pkh pre) txs).flatMap
          (fun t => t.v_out.filter (fun o => o.is_locked_with_key pkh)) =
        refUnspentOutputs hpk pkh (pre ++ txs) txs := by
  intro txs
  induction txs with
  | nil => intro pre _ _; rfl
  | cons t rest ih =>
    intro pre hOK h1
    have hsuffix : refsOKB hpk pkh (t :: rest) = true :=
      refsOKB_append_right hpk pkh pre _ hOK
    have hheadOK : refsToB hpk pkh (t :: rest) t.id = false := by
      rw [refsOKB, Bool.and_eq_true] at hsuffix
      simpa using hsuffix.1
    have hpoint : ∀ idx : Int, smContains (markSpentAll hpk pkh pre) t.id idx =
        refSpentB hpk pkh (pre ++ t :: rest) t.id idx := by
      intro idx
      rw [smContains_markSpentAll, refSpentB_append]
      have hsuf : refSpentB hpk pkh (t :: rest) t.id idx = false := by
        cases hx : refSpentB hpk pkh (t :: rest) t.id idx with
        | false => rfl
        | true =>
          have := refsToB_of_refSpentB hpk pkh _ _ _ hx
          rw [hheadOK] at this
          cases this
      rw [hsuf, Bool.or_false]
    have hOK2 : refsOKB hpk pkh ((pre ++ [t]) ++ rest) = true := by
      rwa [List.append_assoc, List.singleton_append]
    have h1r : ∀ t2 ∈ rest,
        (t2.v_out.filter (fun o => o.is_locked_with_key pkh)).length ≤ 1 :=
      fun t2 ht2 => h1 t2 (by simp [ht2])
    have hrec := ih (pre ++ [t]) hOK2 h1r
    rw [List.append_assoc, List.singleton_append] at hrec
    rw [futGo, List.flatMap_append, collectOuts_eq,
      show (if t.is_coinbase then markSpentAll hpk pkh pre
        else markSpent hpk pkh (markSpentAll hpk pkh pre) t.v_in) =
          markSpentAll hpk pkh (pre ++ [t]) from (markSpentAll_append_one hpk pkh pre t).symm,
      hrec]
    have hfe : (fun p : Nat × TXOutput =>
        !smContains (markSpentAll hpk pkh pre) t.id (p.1 : Int) &&
          p.2.is_locked_with_key pkh) = (fun p : Nat × TXOutput =>
        p.2.is_locked_with_key pkh &&
          !refSpentB hpk pkh (pre ++ t :: rest) t.id (p.1 : Int)) := by
      funext p
      rw [hpoint, Bool.and_comm]
    rw [hfe]
    have hhead := replicate_filter_piece pkh t
      (fun p : Nat × TXOutput => p.2.is_locked_with_key pkh &&
        !refSpentB hpk pkh (pre ++ t :: rest) t.id (p.1 : Int))
      (fun p hp => (Bool.and_eq_true _ _ |>.mp hp).1) (h1 t (by simp))
    rw [hhead]
    rfl

/-- Claim C4 (corrected, restricted): provided every transaction of the
chain has at most one output locked to `pkh` and spends are well-ordered
along the tip-to-genesis scan (`refsOKB` — no transaction is referenced by a
`pkh`-owned input at or after its own scan position, as in any mined chain),
`find_utxo(pkh)` returns exactly the currently-unspent outputs locked to
`pkh`, once each (so their sum is the balance).  Without the restriction a
transaction with several unspent matching outputs is pushed once per such
output, so `find_utxo` duplicates outputs — see the counterexample. -/
theorem c4_find_utxo_unspent (hpk : List Nat → List Nat) (c : Chain) (pkh : List Nat)
    (hOK : refsOKB hpk pkh (flatTxs c) = true)
    (h1 : ∀ t ∈ flatTxs c,
      (t.v_out.filter (fun o => o.is_locked_with_key pkh)).length ≤ 1) :
    find_utxo hpk c pkh = refUnspentOutputs hpk pkh (flatTxs c) (flatTxs c) := by
  have := futGo_pre hpk pkh (flatTxs c) [] (by simpa using hOK) h1
  simpa [find_utxo, find_unspend_transactions, markSpentAll] using this

/-- Witness scenario for C4: the coinbase `t0C` to hash `[5]` spent by a
transaction paying 3 to `[7]` with 6 change back to `[5]`. -/
def txW1 : Transaction := ⟨"bb", [⟨"aa", 0, [9], [2]⟩], [⟨3, [7]⟩, ⟨6, [5]⟩]⟩

/-- The two-block witness chain, tip first. -/
def chainW4 : Chain := [⟨[txW1], [2], [3]⟩, ⟨[t0C], List.replicate 32 0, [2]⟩]

/-- Witness for C4 (amended): the witness chain satisfies both restrictions
and `find_utxo` returns exactly the reference unspent outputs (here the
single change output). -/
theorem c4_find_utxo_unspent_witness :
    find_utxo hpkC chainW4 [5] =
      refUnspentOutputs hpkC [5] (flatTxs chainW4) (flatTxs chainW4) :=
  c4_find_utxo_unspent hpkC chainW4 [5] (by decide) (by decide)

/-- Counterexample scenario for C4: a send-to-self shaped transaction with
TWO unspent outputs locked to the same hash `[5]`. -/
def tx1C4 : Transaction := ⟨"bb", [⟨"aa", 0, [9], [2]⟩], [⟨4, [5]⟩, ⟨6, [5]⟩]⟩

/-- The counterexample chain, tip first. -/
def chainC4 : Chain := [⟨[tx1C4], [2], [3]⟩, ⟨[t0C], List.replicate 32 0, [2]⟩]

/-- Counterexample to C4 as stated: `find_unspend_transactions` pushes `tx1C4`
once per unspent matching output (twice), so `find_utxo` returns each of its
two unspent outputs TWICE — not exactly once — and summing the returned
values gives 20 instead of the address's balance 10. -/
theorem c4_counterexample :
    find_utxo hpkC chainC4 [5] = [⟨4, [5]⟩, ⟨6, [5]⟩, ⟨4, [5]⟩, ⟨6, [5]⟩] ∧
      (find_utxo hpkC chainC4 [5]).count ⟨4, [5]⟩ = 2 ∧
      refUnspentOutputs hpkC [5] (flatTxs chainC4) (flatTxs chainC4) =
        [⟨4, [5]⟩, ⟨6, [5]⟩] :=
  ⟨by decide, by decide, by decide⟩
